import Mathlib

/-!
Verification development for the local PII detection and redaction engine
(`src/lib/pii.ts`).  Text is modelled as `List Char`; the JavaScript string
operations used by the engine (regex replacement for the fixed obfuscation
patterns, whitespace collapsing, slicing, splitting, case-insensitive literal
search) are embedded as executable Lean functions over `List Char`.
-/

namespace PiiSpec

/-- Membership test for the JavaScript regex class `\s` (the whitespace
characters recognised by `\s`, `String.prototype.trim` and `split(/\s+/)`). -/
def isWS (c : Char) : Bool :=
  c == ' ' || c == '\t' || c == '\n' || c == '\r' ||
  c.toNat == 11 || c.toNat == 12 || c.toNat == 0xa0 || c.toNat == 0x1680 ||
  (0x2000 ≤ c.toNat && c.toNat ≤ 0x200a) || c.toNat == 0x2028 ||
  c.toNat == 0x2029 || c.toNat == 0x202f || c.toNat == 0x205f ||
  c.toNat == 0x3000 || c.toNat == 0xfeff

/-- Membership test for the regex class `[ \t]` used by the whitespace
collapsing step of `normalizeText`. -/
def isSpTab (c : Char) : Bool := c == ' ' || c == '\t'

/-- ASCII lower-casing, the canonicalisation performed by the `i` flag of the
non-unicode JavaScript regexes of the engine (which only folds `A`–`Z`). -/
def asciiLower (c : Char) : Char :=
  if 65 ≤ c.toNat ∧ c.toNat ≤ 90 then Char.ofNat (c.toNat + 32) else c

/-- ASCII upper-casing (models `toUpperCase` on the ASCII fragment). -/
def asciiUpper (c : Char) : Char :=
  if 97 ≤ c.toNat ∧ c.toNat ≤ 122 then Char.ofNat (c.toNat - 32) else c

/-- Case-insensitive character comparison used by the `i`-flagged regexes. -/
def ciEq (a b : Char) : Bool := asciiLower a == asciiLower b

/-- Match the literal pattern `p` case-insensitively at the head of `l`,
returning the remainder of `l` on success. -/
def stripCI : List Char → List Char → Option (List Char)
  | [], l => some l
  | _ :: _, [] => none
  | a :: ps, c :: cs => if ciEq a c then stripCI ps cs else none

/-- Does the literal pattern `p` match case-insensitively at the head of
`l`? -/
def ciStarts (p l : List Char) : Bool := (stripCI p l).isSome

/-- Does the literal pattern `p` occur case-insensitively anywhere in `l`? -/
def hasOcc (p : List Char) : List Char → Bool
  | [] => ciStarts p []
  | c :: cs => ciStarts p (c :: cs) || hasOcc p (cs)

theorem stripCI_length (p : List Char) :
    ∀ l r, stripCI p l = some r → r.length + p.length = l.length := by
  induction p with
  | nil =>
    intro l r h
    simp [stripCI] at h
    simp [h]
  | cons a ps ih =>
    intro l r h
    match l with
    | [] => simp [stripCI] at h
    | b :: bs =>
      simp only [stripCI] at h
      split at h
      · have := ih bs r h
        simp only [List.length_cons]
        omega
      · exact absurd h (by simp)

/-- One global regex replacement `str.replace(/\s*PAT\s*/gi, r)` for a literal
nonempty pattern `PAT = p0 :: ps` that starts with a non-whitespace character:
scan left to right; at each position greedily drop `\s*`, try the literal
pattern case-insensitively, and on success emit `r` and continue after the
greedily consumed trailing `\s*`.  The first argument is recursion fuel
(always instantiated with the input length, which bounds the number of
steps); it makes the definition structurally recursive and hence directly
evaluable by the kernel. -/
def replacePatAux (p0 : Char) (ps : List Char) (r : Char) :
    Nat → List Char → List Char
  | _, [] => []
  | 0, l => l
  | fuel + 1, c :: cs =>
    match stripCI (p0 :: ps) ((c :: cs).dropWhile isWS) with
    | some rest => r :: replacePatAux p0 ps r fuel (rest.dropWhile isWS)
    | none => c :: replacePatAux p0 ps r fuel cs

/-- The replacement `str.replace(/\s*PAT\s*/gi, r)` (see `replacePatAux`). -/
def replacePat (p0 : Char) (ps : List Char) (r : Char) (l : List Char) :
    List Char :=
  replacePatAux p0 ps r l.length l

/-- Collapse every maximal run of the class `[ \t]` to a single space
(the replacement `replace(/[ \t]+/g, " ")`); fueled as in `replacePatAux`. -/
def collapseWsAux : Nat → List Char → List Char
  | _, [] => []
  | 0, l => l
  | fuel + 1, c :: cs =>
    if isSpTab c then ' ' :: collapseWsAux fuel (cs.dropWhile isSpTab)
    else c :: collapseWsAux fuel cs

/-- The replacement `replace(/[ \t]+/g, " ")` (see `collapseWsAux`). -/
def collapseWs (l : List Char) : List Char := collapseWsAux l.length l

/-- Deletion of carriage returns (the replacement `replace(/\r/g, "")`). -/
def removeCR (l : List Char) : List Char := l.filter (fun c => c != '\r')

/-- Models the call `input.normalize("NFKC")`.  NFKC normalization is the
identity on every ASCII string; the development only ever evaluates the
normalizer on such strings, so the library call is embedded as the
identity. -/
def nfkcModel (l : List Char) : List Char := l

/-- The pattern `(at)` of `normalizeText`. -/
def patAtPar : List Char := ['a', 't', ')']
/-- The pattern `[at]` of `normalizeText`. -/
def patAtBr : List Char := ['a', 't', ']']
/-- The pattern `(dot)` of `normalizeText`. -/
def patDotPar : List Char := ['d', 'o', 't', ')']
/-- The pattern `[dot]` of `normalizeText`. -/
def patDotBr : List Char := ['d', 'o', 't', ']']

/-- The normalizer `normalizeText`: NFKC, rewrite the obfuscated separators
`(at)`, `[at]`, `(dot)`, `[dot]` (case-insensitive, with surrounding `\s*`)
to `@` and `.`, collapse `[ \t]+` runs to a single space, and strip carriage
returns — in exactly the source's order. -/
def normalizeText (l : List Char) : List Char :=
  removeCR (collapseWs
    (replacePat '[' patDotBr '.'
      (replacePat '(' patDotPar '.'
        (replacePat '[' patAtBr '@'
          (replacePat '(' patAtPar '@' (nfkcModel l))))))

/-! ### Data model: kinds, modes, sources, spans -/

/-- The closed enumeration of PII kinds (`type Kind`). -/
inductive Kind where
  | email | phone | url | linkedin | github | address | id | name | org | loc
deriving DecidableEq, Repr, Fintype

/-- The redaction modes (`type RedactionMode`). -/
inductive RedactionMode where
  | hash | mask | drop
deriving DecidableEq, Repr, Fintype

/-- The detector sources a span can carry (`Span.source`); the field is
optional in the source, hence spans hold an `Option Source`. -/
inductive Source where
  | regex | ner | flagger | layout
deriving DecidableEq, Repr, Fintype

/-- A candidate or resolved span (`type Span`).  Offsets are character
offsets into the normalized text; `value` is the covered substring. -/
structure Span where
  start : Nat
  «end» : Nat
  value : List Char
  kind : Kind
  source : Option Source := none
  score : Option ℚ := none
deriving DecidableEq, Repr

/-- A per-kind mode table (`RedactionConfig = Partial Record<Kind, Mode>`). -/
def RedactionConfig := Kind → Option RedactionMode

/-- The fixed default mode table (`defaultModes`), total over kinds. -/
def defaultModes : Kind → RedactionMode
  | .email => .hash
  | .phone => .hash
  | .url => .hash
  | .linkedin => .hash
  | .github => .hash
  | .address => .mask
  | .id => .drop
  | .name => .mask
  | .org => .mask
  | .loc => .mask

/-! ### Span resolver (`mergeAndDedupe`) -/

/-- The source-priority table of the resolver:
`{ regex: 3, flagger: 2, layout: 2, ner: 1 }`, defaulting to 0 for an absent
source. -/
def priority : Option Source → Nat
  | some .regex => 3
  | some .flagger => 2
  | some .layout => 2
  | some .ner => 1
  | none => 0

/-- The span length `s.end - s.start` as computed on JavaScript numbers
(no truncation). -/
def spanLen (s : Span) : Int := (s.«end» : Int) - (s.start : Int)

/-- The comparator `(a, b) => a.start - b.start || b.end - a.end` of the
resolver, as the total preorder a stable sort is consistent with. -/
def spanLE (a b : Span) : Bool :=
  a.start < b.start || (a.start == b.start && b.«end» ≤ a.«end»)

/-- The sort performed by `mergeAndDedupe` (JavaScript `Array.prototype.sort`
is stable, so it is the stable merge sort under `spanLE`). -/
def sortSpans (spans : List Span) : List Span := spans.mergeSort spanLE

/-- One iteration of the resolver's accumulation loop, over the output list
kept in reverse (most recently accepted span first). -/
def mergeStep (acc : List Span) (s : Span) : List Span :=
  match acc with
  | [] => [s]
  | top :: rest =>
    if top.«end» ≤ s.start then s :: top :: rest
    else if spanLen s < spanLen top || priority top.source < priority s.source then
      s :: rest
    else top :: rest

/-- The resolver `mergeAndDedupe`: sort by start ascending then end
descending, and fold the overlap-resolution step over the sorted list. -/
def mergeAndDedupe (spans : List Span) : List Span :=
  ((sortSpans spans).foldl mergeStep []).reverse

theorem spanLE_trans (a b c : Span) (h₁ : spanLE a b = true) (h₂ : spanLE b c = true) :
    spanLE a c = true := by
  simp only [spanLE, Bool.or_eq_true, Bool.and_eq_true, decide_eq_true_eq, beq_iff_eq] at *
  omega

theorem spanLE_total (a b : Span) : (spanLE a b || spanLE b a) = true := by
  simp only [spanLE, Bool.or_eq_true, Bool.and_eq_true, decide_eq_true_eq, beq_iff_eq]
  omega

theorem spanLE_start (a b : Span) (h : spanLE a b = true) : a.start ≤ b.start := by
  simp only [spanLE, Bool.or_eq_true, Bool.and_eq_true, decide_eq_true_eq, beq_iff_eq] at h
  omega

/-- The inner invariant of the resolver loop, on the reversed accumulator:
consecutive accepted spans are non-overlapping and in descending start
order. -/
def RevOK (acc : List Span) : Prop :=
  List.Chain' (fun a b => b.«end» ≤ a.start ∧ b.start ≤ a.start) acc

theorem foldl_mergeStep_revOK :
    ∀ (pending acc : List Span),
      List.Pairwise (fun a b => a.start ≤ b.start) pending →
      RevOK acc →
      (∀ x ∈ pending, ∀ hd ∈ acc.head?, hd.start ≤ x.start) →
      RevOK (pending.foldl mergeStep acc) := by
  intro pending
  induction pending with
  | nil => intro acc _ hrev _; exact hrev
  | cons s rest ih =>
    intro acc hsort hrev hhd
    have hsrest : ∀ x ∈ rest, s.start ≤ x.start := by
      intro x hx; exact (List.pairwise_cons.mp hsort).1 x hx
    have hsort' : List.Pairwise (fun a b => a.start ≤ b.start) rest :=
      (List.pairwise_cons.mp hsort).2
    simp only [List.foldl_cons]
    apply ih _ hsort'
    · -- the accumulator invariant is preserved by one step
      cases acc with
      | nil => simp [mergeStep, RevOK]
      | cons top rest2 =>
        have htop : top.start ≤ s.start := hhd s (by simp) top (by simp)
        simp only [mergeStep]
        split
        · -- push: no overlap with the accepted head
          rename_i hle
          exact List.Chain'.cons ⟨hle, htop⟩ hrev
        · split
          · -- replace the head
            cases rest2 with
            | nil => simp [RevOK]
            | cons second rest3 =>
              have hpair := (List.chain'_cons.mp hrev).1
              have htail := (List.chain'_cons.mp hrev).2
              exact List.Chain'.cons
                ⟨le_trans hpair.1 htop, le_trans hpair.2 htop⟩ htail
          · -- keep the head
            exact hrev
    · -- the head of the new accumulator starts no later than any later span
      intro x hx hd hmem
      have hsx : s.start ≤ x.start := hsrest x hx
      cases acc with
      | nil =>
        simp [mergeStep] at hmem
        rw [← hmem]
        exact hsx
      | cons top rest2 =>
        have htop : top.start ≤ s.start := hhd s (by simp) top (by simp)
        simp only [mergeStep] at hmem
        split at hmem <;> [skip; split at hmem] <;> simp_all <;> omega

theorem mergeAndDedupe_chain (spans : List Span) :
    List.Chain' (fun a b => a.start ≤ b.start ∧ a.«end» ≤ b.start)
      (mergeAndDedupe spans) := by
  have hsorted : List.Pairwise (fun a b => a.start ≤ b.start) (sortSpans spans) := by
    have := @List.sorted_mergeSort _ spanLE spanLE_trans spanLE_total spans
    exact this.imp (fun h => spanLE_start _ _ h)
  have hrev := foldl_mergeStep_revOK (sortSpans spans) [] hsorted
    (by simp [RevOK]) (by simp)
  rw [mergeAndDedupe, List.chain'_reverse]
  exact hrev.imp (fun _ _ h => ⟨h.2, h.1⟩)

/-- C1: for every finite set of candidate spans, `mergeAndDedupe` returns a
list sorted by ascending start in which consecutive spans never overlap:
for all consecutive output spans `(a, b)`, `a.end ≤ b.start`. -/
theorem claim_C1 (spans : List Span) :
    List.Pairwise (fun a b => a.start ≤ b.start) (mergeAndDedupe spans) ∧
    List.Chain' (fun a b => a.«end» ≤ b.start) (mergeAndDedupe spans) := by
  have h := mergeAndDedupe_chain spans
  constructor
  · haveI : IsTrans Span (fun a b => a.start ≤ b.start) :=
      ⟨fun _ _ _ => Nat.le_trans⟩
    exact List.chain'_iff_pairwise.mp (h.imp (fun _ _ hp => hp.1))
  · exact h.imp (fun _ _ hp => hp.2)

/-- A `regex`-sourced span of length 5 (scenario of claim C4). -/
def exampleRegexSpan : Span :=
  { start := 0, «end» := 5, value := ['a', 'b', 'c', 'd', 'e'], kind := .email,
    source := some .regex }

/-- A `layout`-sourced span of length 3 at the same start (scenario of claim
C4). -/
def exampleLayoutSpan : Span :=
  { start := 0, «end» := 3, value := ['a', 'b', 'c'], kind := .name,
    source := some .layout }

/-- C4: when a candidate overlaps the last accepted span, the resolver
replaces the last accepted span by the candidate exactly when the candidate
is strictly shorter or its source priority (regex 3, flagger 2, layout 2,
ner 1, absent 0) is strictly higher, and otherwise discards the candidate;
in particular a regex span of length 5 fully containing a layout span of
length 3 at the same start resolves to the shorter layout span. -/
theorem claim_C4 (top s : Span) (rest : List Span) (h : s.start < top.«end») :
    mergeStep (top :: rest) s =
      (if spanLen s < spanLen top ∨ priority top.source < priority s.source
        then s else top) :: rest ∧
    mergeAndDedupe [exampleRegexSpan, exampleLayoutSpan] = [exampleLayoutSpan] := by
  constructor
  · simp only [mergeStep]
    rw [if_neg (by omega)]
    by_cases hc : spanLen s < spanLen top ∨ priority top.source < priority s.source
    · rw [if_pos hc]
      rcases hc with hc | hc <;> simp [hc]
    · rw [if_neg hc]
      push_neg at hc
      simp [not_lt.mpr hc.1, not_lt.mpr hc.2]
  · simp [mergeAndDedupe, sortSpans, List.mergeSort, mergeStep, spanLE,
      exampleRegexSpan, exampleLayoutSpan, spanLen, priority]

/-- Witness for C4 at a concrete overlapping pair: the layout span of length
3 replaces the regex span of length 5 it overlaps. -/
theorem claim_C4_witness :
    mergeStep [exampleRegexSpan] exampleLayoutSpan =
      (if spanLen exampleLayoutSpan < spanLen exampleRegexSpan ∨
          priority exampleRegexSpan.source < priority exampleLayoutSpan.source
        then exampleLayoutSpan else exampleRegexSpan) :: ([] : List Span) ∧
    mergeAndDedupe [exampleRegexSpan, exampleLayoutSpan] = [exampleLayoutSpan] :=
  claim_C4 exampleRegexSpan exampleLayoutSpan [] (by decide)

/-! ### SHA-256 (the `crypto.subtle.digest("SHA-256", utf8(s))` call of
`sha256Hex`, embedded as the FIPS 180-4 algorithm over `Nat` with explicit
reduction modulo `2^32`) -/

/-- Right rotation of a 32-bit word (values kept below `2^32`). -/
def rotr32 (n x : Nat) : Nat := x / 2 ^ n + x % 2 ^ n * 2 ^ (32 - n)

/-- The SHA-256 small sigma-0 schedule function. -/
def ssig0 (x : Nat) : Nat := rotr32 7 x ^^^ rotr32 18 x ^^^ x / 2 ^ 3
/-- The SHA-256 small sigma-1 schedule function. -/
def ssig1 (x : Nat) : Nat := rotr32 17 x ^^^ rotr32 19 x ^^^ x / 2 ^ 10
/-- The SHA-256 big sigma-0 compression function. -/
def bsig0 (x : Nat) : Nat := rotr32 2 x ^^^ rotr32 13 x ^^^ rotr32 22 x
/-- The SHA-256 big sigma-1 compression function. -/
def bsig1 (x : Nat) : Nat := rotr32 6 x ^^^ rotr32 11 x ^^^ rotr32 25 x
/-- The SHA-256 choice function. -/
def chF (x y z : Nat) : Nat := (x &&& y) ^^^ ((x ^^^ 0xffffffff) &&& z)
/-- The SHA-256 majority function. -/
def majF (x y z : Nat) : Nat := (x &&& y) ^^^ (x &&& z) ^^^ (y &&& z)

/-- The 64 SHA-256 round constants. -/
def sha256K : List Nat :=
  [1116352408, 1899447441, 3049323471, 3921009573, 961987163,
   1508970993, 2453635748, 2870763221, 3624381080, 310598401,
   607225278, 1426881987, 1925078388, 2162078206, 2614888103,
   3248222580, 3835390401, 4022224774, 264347078, 604807628,
   770255983, 1249150122, 1555081692, 1996064986, 2554220882,
   2821834349, 2952996808, 3210313671, 3336571891, 3584528711,
   113926993, 338241895, 666307205, 773529912, 1294757372,
   1396182291, 1695183700, 1986661051, 2177026350, 2456956037,
   2730485921, 2820302411, 3259730800, 3345764771, 3516065817,
   3600352804, 4094571909, 275423344, 430227734, 506948616,
   659060556, 883997877, 958139571, 1322822218, 1537002063,
   1747873779, 1955562222, 2024104815, 2227730452, 2361852424,
   2428436474, 2756734187, 3204031479, 3329325298]

/-- The SHA-256 initial hash value. -/
def sha256H0 : List Nat :=
  [1779033703, 3144134277, 1013904242, 2773480762, 1359893119,
   2600822924, 528734635, 1541459225]

/-- UTF-8 encoding of one character (the `TextEncoder` step). -/
def utf8Bytes (c : Char) : List Nat :=
  let n := c.toNat
  if n < 0x80 then [n]
  else if n < 0x800 then [0xc0 + n / 64, 0x80 + n % 64]
  else if n < 0x10000 then [0xe0 + n / 4096, 0x80 + n / 64 % 64, 0x80 + n % 64]
  else [0xf0 + n / 262144, 0x80 + n / 4096 % 64, 0x80 + n / 64 % 64, 0x80 + n % 64]

/-- UTF-8 encoding of a string as a byte list. -/
def encodeUtf8 (l : List Char) : List Nat :=
  l.foldr (fun c acc => utf8Bytes c ++ acc) []

/-- Big-endian 8-byte encoding of the bit length, for SHA-256 padding. -/
def beBytes8 (n : Nat) : List Nat :=
  [n / 2 ^ 56 % 256, n / 2 ^ 48 % 256, n / 2 ^ 40 % 256, n / 2 ^ 32 % 256,
   n / 2 ^ 24 % 256, n / 2 ^ 16 % 256, n / 2 ^ 8 % 256, n % 256]

/-- SHA-256 message padding: append `0x80`, zeros, and the 64-bit message bit
length, reaching a multiple of 64 bytes. -/
def padMessage (msg : List Nat) : List Nat :=
  let zeros := (64 - (msg.length + 9) % 64) % 64
  msg ++ [0x80] ++ List.replicate zeros 0 ++ beBytes8 (8 * msg.length)

/-- Group a byte list into big-endian 32-bit words. -/
def toWords : List Nat → List Nat
  | a :: b :: c :: d :: rest => (((a * 256 + b) * 256 + c) * 256 + d) :: toWords rest
  | _ => []

/-- Split a word list into 16-word blocks (fueled structural recursion; the
fuel is instantiated with the list length). -/
def chunk16Aux : Nat → List Nat → List (List Nat)
  | _, [] => []
  | 0, _ => []
  | fuel + 1, w :: ws => ((w :: ws).take 16) :: chunk16Aux fuel ((w :: ws).drop 16)

/-- Split a word list into 16-word blocks. -/
def chunk16 (l : List Nat) : List (List Nat) := chunk16Aux l.length l

/-- The SHA-256 message schedule: extend a 16-word block to 64 words. -/
def msgSchedule (block : List Nat) : List Nat :=
  (List.range 48).foldl
    (fun w _ =>
      let n := w.length
      let x := (ssig1 (w.getD (n - 2) 0) + w.getD (n - 7) 0 +
        ssig0 (w.getD (n - 15) 0) + w.getD (n - 16) 0) % 2 ^ 32
      w ++ [x])
    block

/-- One SHA-256 compression round on the eight working registers. -/
def compressStep (k w : Nat) (st : List Nat) : List Nat :=
  match st with
  | [a, b, c, d, e, f, g, h] =>
    let t1 := (h + bsig1 e + chF e f g + k + w) % 2 ^ 32
    let t2 := (bsig0 a + majF a b c) % 2 ^ 32
    [(t1 + t2) % 2 ^ 32, a, b, c, (d + t1) % 2 ^ 32, e, f, g]
  | st => st

/-- SHA-256 compression of one 16-word block into the running hash state. -/
def compressBlock (st : List Nat) (block : List Nat) : List Nat :=
  let w := msgSchedule block
  let fin := (sha256K.zip w).foldl (fun s kw => compressStep kw.1 kw.2 s) st
  List.zipWith (fun x y => (x + y) % 2 ^ 32) st fin

/-- SHA-256 digest of a byte list, as eight 32-bit words. -/
def sha256Words (msg : List Nat) : List Nat :=
  (chunk16 (toWords (padMessage msg))).foldl compressBlock sha256H0

/-- Lower-case hexadecimal digit. -/
def hexDigit (n : Nat) : Char :=
  if n < 10 then Char.ofNat (48 + n) else Char.ofNat (87 + n)

/-- Eight-hex-digit rendering of a 32-bit word (`toString(16).padStart(2, "0")`
per byte in the source). -/
def wordHex (w : Nat) : List Char :=
  [hexDigit (w / 2 ^ 28 % 16), hexDigit (w / 2 ^ 24 % 16),
   hexDigit (w / 2 ^ 20 % 16), hexDigit (w / 2 ^ 16 % 16),
   hexDigit (w / 2 ^ 12 % 16), hexDigit (w / 2 ^ 8 % 16),
   hexDigit (w / 2 ^ 4 % 16), hexDigit (w % 16)]

/-- The helper `sha256Hex`: SHA-256 of the UTF-8 encoding of the string,
rendered as 64 lower-case hex characters. -/
def sha256Hex (l : List Char) : List Char :=
  (sha256Words (encodeUtf8 l)).foldr (fun w acc => wordHex w ++ acc) []

/-! ### Properties of the normalizer -/

theorem stripCI_eq_drop (p : List Char) :
    ∀ l r, stripCI p l = some r → r = l.drop p.length := by
  induction p with
  | nil =>
    intro l r h
    simp [stripCI] at h
    simp [h]
  | cons a ps ih =>
    intro l r h
    match l with
    | [] => simp [stripCI] at h
    | b :: bs =>
      simp only [stripCI] at h
      split at h
      · simpa using ih bs r h
      · exact absurd h (by simp)

theorem stripCI_nil_none (q0 : Char) (qs : List Char) :
    stripCI (q0 :: qs) [] = none := rfl

theorem hasOcc_cons (q : List Char) (c : Char) (cs : List Char)
    (h : hasOcc q cs = true) : hasOcc q (c :: cs) = true := by
  simp [hasOcc, h]

theorem hasOcc_of_ciStarts (q : List Char) :
    ∀ l, ciStarts q l = true → hasOcc q l = true := by
  intro l h
  cases l with
  | nil => simpa [hasOcc] using h
  | cons c cs => simp [hasOcc, h]

theorem hasOcc_drop (q : List Char) :
    ∀ (n : Nat) (l : List Char), hasOcc q (l.drop n) = true → hasOcc q l = true := by
  intro n
  induction n with
  | zero => simp
  | succ k ih =>
    intro l h
    cases l with
    | nil => simpa using h
    | cons c cs => exact hasOcc_cons _ _ _ (ih cs (by simpa using h))

theorem hasOcc_dropWhile (q : List Char) (p : Char → Bool) :
    ∀ l, hasOcc q (l.dropWhile p) = true → hasOcc q l = true := by
  intro l
  induction l with
  | nil => simp [List.dropWhile]
  | cons c cs ih =>
    intro h
    by_cases hp : p c
    · rw [List.dropWhile_cons_of_pos hp] at h
      exact hasOcc_cons _ _ _ (ih h)
    · rwa [List.dropWhile_cons_of_neg hp] at h

theorem replacePatAux_nil (p0 : Char) (ps : List Char) (r : Char) :
    ∀ f, replacePatAux p0 ps r f [] = [] := by
  intro f
  cases f <;> rfl

theorem collapseWsAux_nil : ∀ f, collapseWsAux f [] = [] := by
  intro f
  cases f <;> rfl

theorem replacePatAux_cons_eq (p0 : Char) (ps : List Char) (r : Char)
    (fuel : Nat) (c : Char) (cs : List Char) :
    replacePatAux p0 ps r (fuel + 1) (c :: cs) =
      (match stripCI (p0 :: ps) ((c :: cs).dropWhile isWS) with
       | some rest => r :: replacePatAux p0 ps r fuel (rest.dropWhile isWS)
       | none => c :: replacePatAux p0 ps r fuel cs) := rfl

theorem replacePatAux_cons_some (p0 : Char) (ps : List Char) (r : Char)
    (fuel : Nat) (c : Char) (cs rest : List Char)
    (hm : stripCI (p0 :: ps) ((c :: cs).dropWhile isWS) = some rest) :
    replacePatAux p0 ps r (fuel + 1) (c :: cs) =
      r :: replacePatAux p0 ps r fuel (rest.dropWhile isWS) := by
  rw [replacePatAux_cons_eq, hm]

theorem replacePatAux_cons_none (p0 : Char) (ps : List Char) (r : Char)
    (fuel : Nat) (c : Char) (cs : List Char)
    (hm : stripCI (p0 :: ps) ((c :: cs).dropWhile isWS) = none) :
    replacePatAux p0 ps r (fuel + 1) (c :: cs) =
      c :: replacePatAux p0 ps r fuel cs := by
  rw [replacePatAux_cons_eq, hm]

theorem collapseWsAux_cons_eq (fuel : Nat) (c : Char) (cs : List Char) :
    collapseWsAux (fuel + 1) (c :: cs) =
      (if isSpTab c then ' ' :: collapseWsAux fuel (cs.dropWhile isSpTab)
       else c :: collapseWsAux fuel cs) := rfl

theorem replacePatAux_fuel (p0 : Char) (ps : List Char) (r : Char) :
    ∀ f g l, l.length ≤ f → l.length ≤ g →
      replacePatAux p0 ps r f l = replacePatAux p0 ps r g l := by
  intro f
  induction f with
  | zero =>
    intro g l hf _
    have : l = [] := List.eq_nil_of_length_eq_zero (Nat.le_zero.mp hf)
    subst this
    simp [replacePatAux_nil]
  | succ k ih =>
    intro g l hf hg
    cases l with
    | nil => simp [replacePatAux_nil]
    | cons c cs =>
      cases g with
      | zero => simp at hg
      | succ g2 =>
        cases hm : stripCI (p0 :: ps) ((c :: cs).dropWhile isWS) with
        | some rest =>
          have hlen : rest.length + (p0 :: ps).length =
              ((c :: cs).dropWhile isWS).length := stripCI_length _ _ _ hm
          have hdw : ((c :: cs).dropWhile isWS).length ≤ cs.length + 1 := by
            have := (List.dropWhile_sublist (l := c :: cs) isWS).length_le
            simpa using this
          have hrest : (rest.dropWhile isWS).length ≤ rest.length :=
            (List.dropWhile_sublist _).length_le
          have h1 : (rest.dropWhile isWS).length ≤ k := by
            simp only [List.length_cons] at hlen hf
            omega
          have h2 : (rest.dropWhile isWS).length ≤ g2 := by
            simp only [List.length_cons] at hlen hg
            omega
          rw [replacePatAux_cons_some _ _ _ _ _ _ _ hm,
            replacePatAux_cons_some _ _ _ _ _ _ _ hm, ih _ _ h1 h2]
        | none =>
          have h1 : cs.length ≤ k := by simp at hf; omega
          have h2 : cs.length ≤ g2 := by simp at hg; omega
          rw [replacePatAux_cons_none _ _ _ _ _ _ hm,
            replacePatAux_cons_none _ _ _ _ _ _ hm, ih _ _ h1 h2]

theorem collapseWsAux_fuel :
    ∀ f g l, l.length ≤ f → l.length ≤ g → collapseWsAux f l = collapseWsAux g l := by
  intro f
  induction f with
  | zero =>
    intro g l hf _
    have : l = [] := List.eq_nil_of_length_eq_zero (Nat.le_zero.mp hf)
    subst this
    simp [collapseWsAux_nil]
  | succ k ih =>
    intro g l hf hg
    cases l with
    | nil => simp [collapseWsAux_nil]
    | cons c cs =>
      cases g with
      | zero => simp at hg
      | succ g2 =>
        rw [collapseWsAux_cons_eq, collapseWsAux_cons_eq]
        have hdw : (cs.dropWhile isSpTab).length ≤ cs.length :=
          (List.dropWhile_sublist _).length_le
        have hcs : cs.length ≤ k := by simp at hf; omega
        have hcs2 : cs.length ≤ g2 := by simp at hg; omega
        rw [ih _ _ (le_trans hdw hcs) (le_trans hdw hcs2), ih _ _ hcs hcs2]

theorem replacePatAux_zero (p0 : Char) (ps : List Char) (r : Char) :
    ∀ l, replacePatAux p0 ps r 0 l = l := by
  intro l
  cases l <;> rfl

theorem collapseWsAux_zero : ∀ l, collapseWsAux 0 l = l := by
  intro l
  cases l <;> rfl

theorem char_toNat_ofNat (n : Nat) (h : n.isValidChar) :
    (Char.ofNat n).toNat = n := by
  simp only [Char.ofNat, dif_pos h]
  rfl

/-- Characters matched case-insensitively onto a non-letter are that
character: ASCII lower-casing can only produce a lower-case letter or fix its
argument. -/
theorem asciiLower_eq_of_nonletter (c t : Char)
    (ht : t.toNat < 97 ∨ 122 < t.toNat) (h : asciiLower c = t) : c = t := by
  unfold asciiLower at h
  split at h
  · rename_i hc
    have hval : (c.toNat + 32).isValidChar := by
      left
      omega
    have hofn : (Char.ofNat (c.toNat + 32)).toNat = c.toNat + 32 :=
      char_toNat_ofNat _ hval
    have : t.toNat = c.toNat + 32 := by rw [← h, hofn]
    omega
  · exact h

theorem ciEq_nonletter (p0 c : Char) (hp : p0.toNat < 97 ∨ 122 < p0.toNat)
    (hfix : asciiLower p0 = p0) (h : ciEq p0 c = true) : c = p0 := by
  simp only [ciEq, beq_iff_eq] at h
  exact asciiLower_eq_of_nonletter c p0 hp (by rw [← h, hfix])

/-- Reflection: a case-insensitive literal match of `q` (whose characters are
never case-equal to the replacement character `r`) at the head of the output
of a replacement pass reflects to a match at the head of the input. -/
theorem replacePat_reflect (p0 : Char) (ps : List Char) (r : Char) :
    ∀ f (m q : List Char), q ≠ [] → (∀ a ∈ q, ciEq a r = false) →
      m.length ≤ f → ciStarts q (replacePatAux p0 ps r f m) = true →
      ciStarts q m = true := by
  intro f
  induction f with
  | zero =>
    intro m q _ _ hlen hocc
    have hm : m = [] := List.eq_nil_of_length_eq_zero (Nat.le_zero.mp hlen)
    subst hm
    rwa [replacePatAux_nil] at hocc
  | succ k ih =>
    intro m q hq hqr hlen hocc
    match q, hq with
    | q0 :: qs, _ =>
      cases m with
      | nil => rwa [replacePatAux_nil] at hocc
      | cons c cs =>
        cases hm : stripCI (p0 :: ps) ((c :: cs).dropWhile isWS) with
        | some rest =>
          rw [replacePatAux_cons_some _ _ _ _ _ _ _ hm] at hocc
          have hq0r : ciEq q0 r = false := hqr q0 (by simp)
          simp [ciStarts, stripCI, hq0r] at hocc
        | none =>
          rw [replacePatAux_cons_none _ _ _ _ _ _ hm] at hocc
          simp only [ciStarts, stripCI] at hocc ⊢
          by_cases hq0c : ciEq q0 c = true
          · rw [if_pos hq0c] at hocc ⊢
            cases qs with
            | nil => simp [stripCI]
            | cons q1 qs2 =>
              have hlen2 : cs.length ≤ k := by
                simp only [List.length_cons] at hlen
                omega
              exact ih cs (q1 :: qs2) (by simp)
                (fun a ha => hqr a (by simp [List.mem_cons] at ha ⊢; tauto))
                hlen2 hocc
          · rw [if_neg hq0c] at hocc
            simp at hocc

/-- After a replacement pass, the pattern itself no longer occurs: the scan
replaced every occurrence, the replacement character cannot begin or continue
one, and an occurrence surviving in copied text would have been matched. -/
theorem replacePat_self_free (p0 : Char) (ps : List Char) (r : Char)
    (hps : ps ≠ []) (hr0 : ciEq p0 r = false)
    (hpsr : ∀ a ∈ ps, ciEq a r = false)
    (hp0ws : ∀ c, ciEq p0 c = true → isWS c = false) :
    ∀ f m, m.length ≤ f →
      hasOcc (p0 :: ps) (replacePatAux p0 ps r f m) = false := by
  intro f
  induction f with
  | zero =>
    intro m hlen
    have hm : m = [] := List.eq_nil_of_length_eq_zero (Nat.le_zero.mp hlen)
    subst hm
    rw [replacePatAux_nil]
    simp [hasOcc, ciStarts, stripCI_nil_none]
  | succ k ih =>
    intro m hlen
    cases m with
    | nil =>
      rw [replacePatAux_nil]
      simp [hasOcc, ciStarts, stripCI_nil_none]
    | cons c cs =>
      cases hm : stripCI (p0 :: ps) ((c :: cs).dropWhile isWS) with
      | some rest =>
        rw [replacePatAux_cons_some _ _ _ _ _ _ _ hm]
        have hlen1 : rest.length + (p0 :: ps).length =
            ((c :: cs).dropWhile isWS).length := stripCI_length _ _ _ hm
        have hdw : ((c :: cs).dropWhile isWS).length ≤ cs.length + 1 := by
          have := (List.dropWhile_sublist (l := c :: cs) isWS).length_le
          simpa using this
        have hrd : (rest.dropWhile isWS).length ≤ rest.length :=
          (List.dropWhile_sublist _).length_le
        have hlen2 : (rest.dropWhile isWS).length ≤ k := by
          simp only [List.length_cons] at hlen1 hlen
          omega
        simp only [hasOcc, Bool.or_eq_false_iff]
        refine ⟨?_, ih _ hlen2⟩
        simp [ciStarts, stripCI, hr0]
      | none =>
        rw [replacePatAux_cons_none _ _ _ _ _ _ hm]
        have hlen2 : cs.length ≤ k := by
          simp only [List.length_cons] at hlen
          omega
        simp only [hasOcc, Bool.or_eq_false_iff]
        refine ⟨?_, ih _ hlen2⟩
        by_cases hp0c : ciEq p0 c = true
        · have hcws : isWS c = false := hp0ws c hp0c
          have hdweq : (c :: cs).dropWhile isWS = c :: cs :=
            List.dropWhile_cons_of_neg (by simp [hcws])
          rw [hdweq] at hm
          simp only [stripCI, if_pos hp0c] at hm
          have hnps : ciStarts ps cs = false := by
            simp [ciStarts, hm]
          simp only [ciStarts, stripCI, if_pos hp0c]
          cases hres : stripCI ps (replacePatAux p0 ps r k cs) with
          | none => simp
          | some w =>
            have : ciStarts ps (replacePatAux p0 ps r k cs) = true := by
              simp [ciStarts, hres]
            have := replacePat_reflect p0 ps r k cs ps hps hpsr hlen2 this
            rw [this] at hnps
            exact absurd hnps (by simp)
        · simp only [ciStarts, stripCI]
          rw [if_neg hp0c]
          simp

/-- A replacement pass for one pattern cannot create an occurrence of another
whitespace-free pattern whose characters are never case-equal to the
replacement character. -/
theorem replacePat_preserve (p0 : Char) (ps : List Char) (r : Char)
    (q : List Char) (hq : q ≠ []) (hqr : ∀ a ∈ q, ciEq a r = false) :
    ∀ f m, m.length ≤ f → hasOcc q m = false →
      hasOcc q (replacePatAux p0 ps r f m) = false := by
  intro f
  induction f with
  | zero =>
    intro m hlen hfree
    have hm : m = [] := List.eq_nil_of_length_eq_zero (Nat.le_zero.mp hlen)
    subst hm
    rwa [replacePatAux_nil]
  | succ k ih =>
    intro m hlen hfree
    cases m with
    | nil => rwa [replacePatAux_nil]
    | cons c cs =>
      have hhead : ciStarts q (c :: cs) = false := by
        cases hx : ciStarts q (c :: cs)
        · rfl
        · rw [hasOcc, hx] at hfree
          simp at hfree
      have htail : hasOcc q cs = false := by
        cases hx : hasOcc q cs
        · rfl
        · rw [hasOcc, hx] at hfree
          simp at hfree
      cases hm : stripCI (p0 :: ps) ((c :: cs).dropWhile isWS) with
      | some rest =>
        rw [replacePatAux_cons_some _ _ _ _ _ _ _ hm]
        have hlen1 : rest.length + (p0 :: ps).length =
            ((c :: cs).dropWhile isWS).length := stripCI_length _ _ _ hm
        have hdw : ((c :: cs).dropWhile isWS).length ≤ cs.length + 1 := by
          have := (List.dropWhile_sublist (l := c :: cs) isWS).length_le
          simpa using this
        have hrd : (rest.dropWhile isWS).length ≤ rest.length :=
          (List.dropWhile_sublist _).length_le
        have hlen2 : (rest.dropWhile isWS).length ≤ k := by
          simp only [List.length_cons] at hlen1 hlen
          omega
        have hrfree : hasOcc q (rest.dropWhile isWS) = false := by
          cases hx : hasOcc q (rest.dropWhile isWS)
          · rfl
          · exfalso
            have h1 : hasOcc q rest = true := hasOcc_dropWhile _ _ _ hx
            have h2 : rest = ((c :: cs).dropWhile isWS).drop (p0 :: ps).length :=
              stripCI_eq_drop _ _ _ hm
            have h3 : hasOcc q ((c :: cs).dropWhile isWS) = true :=
              hasOcc_drop _ _ _ (h2 ▸ h1)
            have h4 : hasOcc q (c :: cs) = true := hasOcc_dropWhile _ _ _ h3
            rw [h4] at hfree
            exact absurd hfree (by simp)
        simp only [hasOcc, Bool.or_eq_false_iff]
        refine ⟨?_, ih _ hlen2 hrfree⟩
        match q, hq with
        | q0 :: qs, _ =>
          have hq0r : ciEq q0 r = false := hqr q0 (by simp)
          simp [ciStarts, stripCI, hq0r]
      | none =>
        rw [replacePatAux_cons_none _ _ _ _ _ _ hm]
        have hlen2 : cs.length ≤ k := by
          simp only [List.length_cons] at hlen
          omega
        simp only [hasOcc, Bool.or_eq_false_iff]
        refine ⟨?_, ih _ hlen2 htail⟩
        match q, hq with
        | q0 :: qs, _ =>
          simp only [ciStarts, stripCI]
          by_cases hq0c : ciEq q0 c = true
          · rw [if_pos hq0c]
            cases hres : stripCI qs (replacePatAux p0 ps r k cs) with
            | none => simp
            | some w =>
              exfalso
              cases qs with
              | nil =>
                simp only [ciStarts, stripCI, if_pos hq0c] at hhead
                simp [stripCI] at hhead
              | cons q1 qs2 =>
                have hocc2 : ciStarts (q1 :: qs2) (replacePatAux p0 ps r k cs) = true := by
                  simp [ciStarts, hres]
                have := replacePat_reflect p0 ps r k cs (q1 :: qs2) (by simp)
                  (fun a ha => hqr a (by simp [List.mem_cons] at ha ⊢; tauto))
                  hlen2 hocc2
                simp only [ciStarts, stripCI, if_pos hq0c] at hhead
                simp only [ciStarts] at this
                rw [hhead] at this
                exact absurd this (by simp)
          · rw [if_neg hq0c]
            simp

/-- A replacement pass is the identity on a string in which the pattern does
not occur. -/
theorem replacePat_id (p0 : Char) (ps : List Char) (r : Char) :
    ∀ f m, m.length ≤ f → hasOcc (p0 :: ps) m = false →
      replacePatAux p0 ps r f m = m := by
  intro f
  induction f with
  | zero =>
    intro m hlen _
    have hm : m = [] := List.eq_nil_of_length_eq_zero (Nat.le_zero.mp hlen)
    subst hm
    rw [replacePatAux_nil]
  | succ k ih =>
    intro m hlen hfree
    cases m with
    | nil => rw [replacePatAux_nil]
    | cons c cs =>
      cases hm : stripCI (p0 :: ps) ((c :: cs).dropWhile isWS) with
      | some rest =>
        exfalso
        have h1 : ciStarts (p0 :: ps) ((c :: cs).dropWhile isWS) = true := by
          simp [ciStarts, hm]
        have h2 : hasOcc (p0 :: ps) ((c :: cs).dropWhile isWS) = true :=
          hasOcc_of_ciStarts _ _ h1
        have h3 : hasOcc (p0 :: ps) (c :: cs) = true := hasOcc_dropWhile _ _ _ h2
        rw [h3] at hfree
        exact absurd hfree (by simp)
      | none =>
        rw [replacePatAux_cons_none _ _ _ _ _ _ hm]
        have htail : hasOcc (p0 :: ps) cs = false := by
          cases hx : hasOcc (p0 :: ps) cs
          · rfl
          · rw [hasOcc, hx] at hfree
            simp at hfree
        have hlen2 : cs.length ≤ k := by
          simp only [List.length_cons] at hlen
          omega
        rw [ih _ hlen2 htail]

/-- Every character of the output of a replacement pass is a character of
the input or the replacement character. -/
theorem replacePat_chars (p0 : Char) (ps : List Char) (r : Char) :
    ∀ f m a, a ∈ replacePatAux p0 ps r f m → a ∈ m ∨ a = r := by
  intro f
  induction f with
  | zero =>
    intro m a ha
    rw [replacePatAux_zero] at ha
    exact Or.inl ha
  | succ k ih =>
    intro m a ha
    cases m with
    | nil =>
      rw [replacePatAux_nil] at ha
      simp at ha
    | cons c cs =>
      cases hm : stripCI (p0 :: ps) ((c :: cs).dropWhile isWS) with
      | some rest =>
        rw [replacePatAux_cons_some _ _ _ _ _ _ _ hm] at ha
        rcases List.mem_cons.mp ha with h | h
        · exact Or.inr h
        · rcases ih _ _ h with h2 | h2
          · left
            have h3 : a ∈ rest := (List.dropWhile_sublist _).subset h2
            have h4 : rest = ((c :: cs).dropWhile isWS).drop (p0 :: ps).length :=
              stripCI_eq_drop _ _ _ hm
            have h5 : a ∈ (c :: cs).dropWhile isWS :=
              List.drop_subset _ _ (h4 ▸ h3)
            exact (List.dropWhile_sublist _).subset h5
          · exact Or.inr h2
      | none =>
        rw [replacePatAux_cons_none _ _ _ _ _ _ hm] at ha
        rcases List.mem_cons.mp ha with h | h
        · exact Or.inl (by simp [h])
        · rcases ih _ _ h with h2 | h2
          · exact Or.inl (List.mem_cons_of_mem _ h2)
          · exact Or.inr h2

/-- A replacement pass preserves the existence of a non-whitespace character
when the replacement character is itself non-whitespace. -/
theorem replacePat_nonws (p0 : Char) (ps : List Char) (r : Char)
    (hrws : isWS r = false) :
    ∀ f m, (∃ c ∈ m, isWS c = false) →
      ∃ c ∈ replacePatAux p0 ps r f m, isWS c = false := by
  intro f
  induction f with
  | zero =>
    intro m hex
    rw [replacePatAux_zero]
    exact hex
  | succ k ih =>
    intro m hex
    cases m with
    | nil => simp at hex
    | cons c cs =>
      cases hm : stripCI (p0 :: ps) ((c :: cs).dropWhile isWS) with
      | some rest =>
        rw [replacePatAux_cons_some _ _ _ _ _ _ _ hm]
        exact ⟨r, by simp, hrws⟩
      | none =>
        rw [replacePatAux_cons_none _ _ _ _ _ _ hm]
        by_cases hc : isWS c = false
        · exact ⟨c, by simp, hc⟩
        · obtain ⟨x, hx, hxws⟩ := hex
          have hxcs : x ∈ cs := by
            rcases List.mem_cons.mp hx with h | h
            · exfalso
              rw [h] at hxws
              simp [hxws] at hc
            · exact h
          obtain ⟨y, hy, hyws⟩ := ih cs ⟨x, hxcs, hxws⟩
          exact ⟨y, by simp [hy], hyws⟩

/-- Reflection through whitespace collapsing for whitespace-free patterns. -/
theorem collapseWs_reflect :
    ∀ f (m q : List Char), q ≠ [] → (∀ a ∈ q, ciEq a ' ' = false) →
      m.length ≤ f → ciStarts q (collapseWsAux f m) = true →
      ciStarts q m = true := by
  intro f
  induction f with
  | zero =>
    intro m q _ _ hlen hocc
    have hm : m = [] := List.eq_nil_of_length_eq_zero (Nat.le_zero.mp hlen)
    subst hm
    rwa [collapseWsAux_nil] at hocc
  | succ k ih =>
    intro m q hq hqsp hlen hocc
    match q, hq with
    | q0 :: qs, _ =>
      cases m with
      | nil => rwa [collapseWsAux_nil] at hocc
      | cons c cs =>
        rw [collapseWsAux_cons_eq] at hocc
        have hlen2 : cs.length ≤ k := by
          simp only [List.length_cons] at hlen
          omega
        by_cases hsp : isSpTab c = true
        · rw [if_pos hsp] at hocc
          have hq0 : ciEq q0 ' ' = false := hqsp q0 (by simp)
          simp [ciStarts, stripCI, hq0] at hocc
        · rw [if_neg hsp] at hocc
          simp only [ciStarts, stripCI] at hocc ⊢
          by_cases hq0c : ciEq q0 c = true
          · rw [if_pos hq0c] at hocc ⊢
            cases qs with
            | nil => simp [stripCI]
            | cons q1 qs2 =>
              exact ih cs (q1 :: qs2) (by simp)
                (fun a ha => hqsp a (by simp [List.mem_cons] at ha ⊢; tauto))
                hlen2 hocc
          · rw [if_neg hq0c] at hocc
            simp at hocc

/-- Whitespace collapsing cannot create an occurrence of a pattern none of
whose characters is case-equal to a space. -/
theorem collapseWs_preserve (q : List Char) (hq : q ≠ [])
    (hqsp : ∀ a ∈ q, ciEq a ' ' = false) :
    ∀ f m, m.length ≤ f → hasOcc q m = false →
      hasOcc q (collapseWsAux f m) = false := by
  intro f
  induction f with
  | zero =>
    intro m hlen hfree
    have hm : m = [] := List.eq_nil_of_length_eq_zero (Nat.le_zero.mp hlen)
    subst hm
    rwa [collapseWsAux_nil]
  | succ k ih =>
    intro m hlen hfree
    cases m with
    | nil => rwa [collapseWsAux_nil]
    | cons c cs =>
      have hhead : ciStarts q (c :: cs) = false := by
        cases hx : ciStarts q (c :: cs)
        · rfl
        · rw [hasOcc, hx] at hfree
          simp at hfree
      have htail : hasOcc q cs = false := by
        cases hx : hasOcc q cs
        · rfl
        · rw [hasOcc, hx] at hfree
          simp at hfree
      have hlen2 : cs.length ≤ k := by
        simp only [List.length_cons] at hlen
        omega
      rw [collapseWsAux_cons_eq]
      by_cases hsp : isSpTab c = true
      · rw [if_pos hsp]
        have hdfree : hasOcc q (cs.dropWhile isSpTab) = false := by
          cases hx : hasOcc q (cs.dropWhile isSpTab)
          · rfl
          · have := hasOcc_dropWhile _ _ _ hx
            rw [this] at htail
            exact absurd htail (by simp)
        have hdlen : (cs.dropWhile isSpTab).length ≤ k :=
          le_trans (List.dropWhile_sublist _).length_le hlen2
        simp only [hasOcc, Bool.or_eq_false_iff]
        refine ⟨?_, ih _ hdlen hdfree⟩
        match q, hq with
        | q0 :: qs, _ =>
          have hq0 : ciEq q0 ' ' = false := hqsp q0 (by simp)
          simp [ciStarts, stripCI, hq0]
      · rw [if_neg hsp]
        simp only [hasOcc, Bool.or_eq_false_iff]
        refine ⟨?_, ih _ hlen2 htail⟩
        match q, hq with
        | q0 :: qs, _ =>
          simp only [ciStarts, stripCI]
          by_cases hq0c : ciEq q0 c = true
          · rw [if_pos hq0c]
            cases hres : stripCI qs (collapseWsAux k cs) with
            | none => simp
            | some w =>
              exfalso
              cases qs with
              | nil =>
                simp only [ciStarts, stripCI, if_pos hq0c] at hhead
                simp [stripCI] at hhead
              | cons q1 qs2 =>
                have hocc2 : ciStarts (q1 :: qs2) (collapseWsAux k cs) = true := by
                  simp [ciStarts, hres]
                have := collapseWs_reflect k cs (q1 :: qs2) (by simp)
                  (fun a ha => hqsp a (by simp [List.mem_cons] at ha ⊢; tauto))
                  hlen2 hocc2
                simp only [ciStarts, stripCI, if_pos hq0c] at hhead
                simp only [ciStarts] at this
                rw [hhead] at this
                exact absurd this (by simp)
          · rw [if_neg hq0c]
            simp

/-- Every character of the collapsed string is a character of the input or a
space. -/
theorem collapseWs_chars :
    ∀ f m a, a ∈ collapseWsAux f m → a ∈ m ∨ a = ' ' := by
  intro f
  induction f with
  | zero =>
    intro m a ha
    rw [collapseWsAux_zero] at ha
    exact Or.inl ha
  | succ k ih =>
    intro m a ha
    cases m with
    | nil =>
      rw [collapseWsAux_nil] at ha
      simp at ha
    | cons c cs =>
      rw [collapseWsAux_cons_eq] at ha
      by_cases hsp : isSpTab c = true
      · rw [if_pos hsp] at ha
        rcases List.mem_cons.mp ha with h | h
        · exact Or.inr h
        · rcases ih _ _ h with h2 | h2
          · exact Or.inl (List.mem_cons_of_mem _ ((List.dropWhile_sublist _).subset h2))
          · exact Or.inr h2
      · rw [if_neg hsp] at ha
        rcases List.mem_cons.mp ha with h | h
        · exact Or.inl (by simp [h])
        · rcases ih _ _ h with h2 | h2
          · exact Or.inl (List.mem_cons_of_mem _ h2)
          · exact Or.inr h2

/-- Whitespace collapsing preserves the existence of a non-whitespace
character. -/
theorem collapseWs_nonws :
    ∀ f m, (∃ c ∈ m, isWS c = false) →
      ∃ c ∈ collapseWsAux f m, isWS c = false := by
  intro f
  induction f with
  | zero =>
    intro m hex
    rwa [collapseWsAux_zero]
  | succ k ih =>
    intro m hex
    cases m with
    | nil => simp at hex
    | cons c cs =>
      rw [collapseWsAux_cons_eq]
      by_cases hsp : isSpTab c = true
      · rw [if_pos hsp]
        obtain ⟨x, hx, hxws⟩ := hex
        have hcws : isWS c = true := by
          simp only [isSpTab, Bool.or_eq_true, beq_iff_eq] at hsp
          rcases hsp with h | h <;> simp [isWS, h]
        have hxcs : x ∈ cs := by
          rcases List.mem_cons.mp hx with h | h
          · exfalso
            rw [h] at hxws
            rw [hxws] at hcws
            simp at hcws
          · exact h
        have hxd : x ∈ cs.dropWhile isSpTab := by
          clear * - hxcs hxws
          induction cs with
          | nil => simp at hxcs
          | cons d ds ihd =>
            by_cases hd : isSpTab d = true
            · rw [List.dropWhile_cons_of_pos hd]
              apply ihd
              rcases List.mem_cons.mp hxcs with h | h
              · exfalso
                rw [h] at hxws
                simp only [isSpTab, Bool.or_eq_true, beq_iff_eq] at hd
                rcases hd with h2 | h2 <;> rw [h2] at hxws <;> simp [isWS] at hxws
              · exact h
            · rw [List.dropWhile_cons_of_neg (by simp [hd])]
              exact hxcs
        obtain ⟨y, hy, hyws⟩ := ih (cs.dropWhile isSpTab) ⟨x, hxd, hxws⟩
        exact ⟨y, by simp [hy], hyws⟩
      · rw [if_neg hsp]
        by_cases hc : isWS c = false
        · exact ⟨c, by simp, hc⟩
        · obtain ⟨x, hx, hxws⟩ := hex
          have hxcs : x ∈ cs := by
            rcases List.mem_cons.mp hx with h | h
            · exfalso
              rw [h] at hxws
              simp [hxws] at hc
            · exact h
          obtain ⟨y, hy, hyws⟩ := ih cs ⟨x, hxcs, hxws⟩
          exact ⟨y, by simp [hy], hyws⟩

/-- Collapsed strings never begin with a space-or-tab run when the input did
not. -/
theorem collapseWsAux_no_lead (f : Nat) (m : List Char)
    (hm : m = [] ∨ ∃ d ds, m = d :: ds ∧ isSpTab d = false) :
    (collapseWsAux f m).dropWhile isSpTab = collapseWsAux f m := by
  rcases hm with hm | ⟨d, ds, hm, hd⟩
  · subst hm
    rw [collapseWsAux_nil]
    rfl
  · subst hm
    cases f with
    | zero =>
      rw [collapseWsAux_zero]
      exact List.dropWhile_cons_of_neg (by simp [hd])
    | succ k =>
      rw [collapseWsAux_cons_eq, if_neg (by simp [hd])]
      exact List.dropWhile_cons_of_neg (by simp [hd])

/-- Whitespace collapsing is idempotent. -/
theorem collapseWs_of_aux :
    ∀ f m, m.length ≤ f → collapseWs (collapseWsAux f m) = collapseWsAux f m := by
  intro f
  induction f with
  | zero =>
    intro m hlen
    have hm : m = [] := List.eq_nil_of_length_eq_zero (Nat.le_zero.mp hlen)
    subst hm
    rw [collapseWsAux_nil]
    rfl
  | succ k ih =>
    intro m hlen
    cases m with
    | nil =>
      rw [collapseWsAux_nil]
      rfl
    | cons c cs =>
      have hlen2 : cs.length ≤ k := by
        simp only [List.length_cons] at hlen
        omega
      rw [collapseWsAux_cons_eq]
      by_cases hsp : isSpTab c = true
      · rw [if_pos hsp]
        have hdlen : (cs.dropWhile isSpTab).length ≤ k :=
          le_trans (List.dropWhile_sublist _).length_le hlen2
        have hstruct : cs.dropWhile isSpTab = [] ∨
            ∃ d ds, cs.dropWhile isSpTab = d :: ds ∧ isSpTab d = false := by
          cases hdw : cs.dropWhile isSpTab with
          | nil => exact Or.inl rfl
          | cons d ds =>
            refine Or.inr ⟨d, ds, rfl, ?_⟩
            have := List.head_dropWhile_not isSpTab (l := cs) (by simp [hdw])
            simpa [hdw] using this
        rw [collapseWs, List.length_cons, collapseWsAux_cons_eq, if_pos (by decide)]
        rw [collapseWsAux_no_lead _ _ hstruct]
        rw [collapseWsAux_fuel _ _ _ le_rfl
          (le_of_eq rfl)]
        rw [← collapseWs]
        rw [ih _ hdlen]
      · rw [if_neg hsp]
        rw [collapseWs, List.length_cons, collapseWsAux_cons_eq, if_neg hsp]
        rw [← collapseWs, ih _ hlen2]

/-- The final `\r` removal is the identity on carriage-return-free strings. -/
theorem removeCR_eq_self (m : List Char) (h : ∀ c ∈ m, ¬ c = '\r') :
    removeCR m = m := by
  rw [removeCR, List.filter_eq_self]
  intro a ha
  simpa using h a ha

theorem collapseWs_idem (m : List Char) :
    collapseWs (collapseWs m) = collapseWs m :=
  collapseWs_of_aux m.length m le_rfl

theorem ciEq_lparen_ws (c : Char) (h : ciEq '(' c = true) : isWS c = false := by
  rw [show c = '(' from ciEq_nonletter '(' c (by decide) (by decide) h]
  decide

theorem ciEq_lbrack_ws (c : Char) (h : ciEq '[' c = true) : isWS c = false := by
  rw [show c = '[' from ciEq_nonletter '[' c (by decide) (by decide) h]
  decide

/-- C2 (counterexample): normalization is not idempotent on all strings; on
`"(a\rt)"` the first pass only removes the carriage return, producing
`"(at)"`, which the second pass rewrites to `"@"`. -/
theorem claim_C2_counterexample :
    ¬ (normalizeText (normalizeText ("(a\rt)".toList)) =
        normalizeText ("(a\rt)".toList)) := by
  decide

/-- C2 (amended): normalization is idempotent on every input that contains no
carriage return.  (In general idempotence fails: removing `\r` last can
expose an `(at)`/`(dot)` pattern that the first pass did not rewrite.) -/
theorem claim_C2 (l : List Char) (hl : '\r' ∉ l) :
    normalizeText (normalizeText l) = normalizeText l := by
  have hchars : ∀ c ∈ l, ¬ c = '\r' := fun c hc hcr => hl (hcr ▸ hc)
  -- name the intermediate stages of the first pass
  set z1 := replacePat '(' patAtPar '@' l with hz1
  set z2 := replacePat '[' patAtBr '@' z1 with hz2
  set z3 := replacePat '(' patDotPar '.' z2 with hz3
  set z4 := replacePat '[' patDotBr '.' z3 with hz4
  set z5 := collapseWs z4 with hz5
  have hform : normalizeText l = removeCR z5 := rfl
  -- carriage-return freeness of every stage
  have hz1CR : ∀ c ∈ z1, ¬ c = '\r' := by
    intro c hc
    rcases replacePat_chars '(' patAtPar '@' l.length l c hc with h | h
    · exact hchars c h
    · simp [h]
  have hz2CR : ∀ c ∈ z2, ¬ c = '\r' := by
    intro c hc
    rcases replacePat_chars '[' patAtBr '@' z1.length z1 c hc with h | h
    · exact hz1CR c h
    · simp [h]
  have hz3CR : ∀ c ∈ z3, ¬ c = '\r' := by
    intro c hc
    rcases replacePat_chars '(' patDotPar '.' z2.length z2 c hc with h | h
    · exact hz2CR c h
    · simp [h]
  have hz4CR : ∀ c ∈ z4, ¬ c = '\r' := by
    intro c hc
    rcases replacePat_chars '[' patDotBr '.' z3.length z3 c hc with h | h
    · exact hz3CR c h
    · simp [h]
  have hz5CR : ∀ c ∈ z5, ¬ c = '\r' := by
    intro c hc
    rcases collapseWs_chars z4.length z4 c hc with h | h
    · exact hz4CR c h
    · simp [h]
  have hy : removeCR z5 = z5 := removeCR_eq_self z5 hz5CR
  -- occurrence-freeness of the four patterns in the first pass's output
  have hfree1 : hasOcc ('(' :: patAtPar) z5 = false := by
    have s1 : hasOcc ('(' :: patAtPar) z1 = false :=
      replacePat_self_free '(' patAtPar '@' (by decide) (by decide) (by decide)
        ciEq_lparen_ws l.length l le_rfl
    have s2 : hasOcc ('(' :: patAtPar) z2 = false :=
      replacePat_preserve '[' patAtBr '@' ('(' :: patAtPar) (by decide)
        (by decide) z1.length z1 le_rfl s1
    have s3 : hasOcc ('(' :: patAtPar) z3 = false :=
      replacePat_preserve '(' patDotPar '.' ('(' :: patAtPar) (by decide)
        (by decide) z2.length z2 le_rfl s2
    have s4 : hasOcc ('(' :: patAtPar) z4 = false :=
      replacePat_preserve '[' patDotBr '.' ('(' :: patAtPar) (by decide)
        (by decide) z3.length z3 le_rfl s3
    exact collapseWs_preserve ('(' :: patAtPar) (by decide) (by decide)
      z4.length z4 le_rfl s4
  have hfree2 : hasOcc ('[' :: patAtBr) z5 = false := by
    have s2 : hasOcc ('[' :: patAtBr) z2 = false :=
      replacePat_self_free '[' patAtBr '@' (by decide) (by decide) (by decide)
        ciEq_lbrack_ws z1.length z1 le_rfl
    have s3 : hasOcc ('[' :: patAtBr) z3 = false :=
      replacePat_preserve '(' patDotPar '.' ('[' :: patAtBr) (by decide)
        (by decide) z2.length z2 le_rfl s2
    have s4 : hasOcc ('[' :: patAtBr) z4 = false :=
      replacePat_preserve '[' patDotBr '.' ('[' :: patAtBr) (by decide)
        (by decide) z3.length z3 le_rfl s3
    exact collapseWs_preserve ('[' :: patAtBr) (by decide) (by decide)
      z4.length z4 le_rfl s4
  have hfree3 : hasOcc ('(' :: patDotPar) z5 = false := by
    have s3 : hasOcc ('(' :: patDotPar) z3 = false :=
      replacePat_self_free '(' patDotPar '.' (by decide) (by decide) (by decide)
        ciEq_lparen_ws z2.length z2 le_rfl
    have s4 : hasOcc ('(' :: patDotPar) z4 = false :=
      replacePat_preserve '[' patDotBr '.' ('(' :: patDotPar) (by decide)
        (by decide) z3.length z3 le_rfl s3
    exact collapseWs_preserve ('(' :: patDotPar) (by decide) (by decide)
      z4.length z4 le_rfl s4
  have hfree4 : hasOcc ('[' :: patDotBr) z5 = false := by
    have s4 : hasOcc ('[' :: patDotBr) z4 = false :=
      replacePat_self_free '[' patDotBr '.' (by decide) (by decide) (by decide)
        ciEq_lbrack_ws z3.length z3 le_rfl
    exact collapseWs_preserve ('[' :: patDotBr) (by decide) (by decide)
      z4.length z4 le_rfl s4
  -- the second pass is the identity on `z5`
  have hid1 : replacePat '(' patAtPar '@' z5 = z5 :=
    replacePat_id '(' patAtPar '@' z5.length z5 le_rfl hfree1
  have hid2 : replacePat '[' patAtBr '@' z5 = z5 :=
    replacePat_id '[' patAtBr '@' z5.length z5 le_rfl hfree2
  have hid3 : replacePat '(' patDotPar '.' z5 = z5 :=
    replacePat_id '(' patDotPar '.' z5.length z5 le_rfl hfree3
  have hid4 : replacePat '[' patDotBr '.' z5 = z5 :=
    replacePat_id '[' patDotBr '.' z5.length z5 le_rfl hfree4
  have hcoll : collapseWs z5 = z5 := by
    rw [hz5]
    exact collapseWs_idem z4
  calc normalizeText (normalizeText l)
      = normalizeText z5 := by rw [hform, hy]
    _ = removeCR (collapseWs (replacePat '[' patDotBr '.'
          (replacePat '(' patDotPar '.' (replacePat '[' patAtBr '@'
            (replacePat '(' patAtPar '@' z5))))) := rfl
    _ = z5 := by rw [hid1, hid2, hid3, hid4, hcoll, hy]
    _ = normalizeText l := by rw [hform, hy]

/-- Witness for C2 at a concrete carriage-return-free input. -/
theorem claim_C2_witness :
    normalizeText (normalizeText ("jane (at) example (dot) com".toList)) =
      normalizeText ("jane (at) example (dot) com".toList) :=
  claim_C2 ("jane (at) example (dot) com".toList) (by decide)

/-! ### Redactor (`applyRedaction`, `makeTag`) -/

/-- The upper-cased kind name (`kind.toUpperCase()` in `makeTag`). -/
def kindUpper : Kind → List Char
  | .email => "EMAIL".toList
  | .phone => "PHONE".toList
  | .url => "URL".toList
  | .linkedin => "LINKEDIN".toList
  | .github => "GITHUB".toList
  | .address => "ADDRESS".toList
  | .id => "ID".toList
  | .name => "NAME".toList
  | .org => "ORG".toList
  | .loc => "LOC".toList

/-- The tag builder `makeTag`: `[[KIND:h]]` where `h` is the first 8 hex
characters of the SHA-256 digest of the span's matched substring. -/
def makeTag (k : Kind) (v : List Char) : List Char :=
  ('[' :: '[' :: kindUpper k) ++ ':' :: ((sha256Hex v).take 8 ++ [']', ']'])

/-- JavaScript `text.slice(a, b)` for `0 ≤ a, b` (clamping; empty when
`b ≤ a`). -/
def jsSlice (l : List Char) (a b : Nat) : List Char := (l.drop a).take (b - a)

/-- Mode resolution `modes[s.kind] ?? defaultModes[s.kind] ?? "hash"`; the
default table is total over kinds, so the final `?? "hash"` fallback is
unreachable but retained by `Option.getD` on the default. -/
def modeFor (modes : RedactionConfig) (k : Kind) : RedactionMode :=
  (modes k).getD ((some (defaultModes k)).getD .hash)

/-- The replacement text the redactor emits for one span. -/
def replacementFor (modes : RedactionConfig) (s : Span) : List Char :=
  match modeFor modes s.kind with
  | .drop => []
  | .mask => List.replicate (s.«end» - s.start) '*'
  | .hash => makeTag s.kind s.value

/-- The loop of `applyRedaction`: copy from the cursor `last` to the span
start, emit the replacement, move the cursor to the span end, and finally
copy the tail. -/
def applyGo (text : List Char) (modes : RedactionConfig) :
    Nat → List Span → List Char
  | last, [] => text.drop last
  | last, s :: rest =>
    jsSlice text last s.start ++ replacementFor modes s ++
      applyGo text modes s.«end» rest

/-- The redactor `applyRedaction` (returning the `redacted` string). -/
def applyRedaction (text : List Char) (spans : List Span)
    (modes : RedactionConfig) : List Char :=
  applyGo text modes 0 spans

/-- The redactor as the spec words it (§4.7): copy the text before the span,
emit the span's replacement, and keep everything of the remaining document
beyond the span's end — formulated by right recursion on the span list. -/
def specRedact (text : List Char) (modes : RedactionConfig) :
    List Span → List Char
  | [] => text
  | s :: rest =>
    text.take s.start ++ replacementFor modes s ++
      (specRedact text modes rest).drop s.«end»

theorem chain_end_le (s : Span) :
    ∀ rest, List.Chain' (fun a b => a.«end» ≤ b.start) (s :: rest) →
      (∀ x ∈ rest, x.start ≤ x.«end») → ∀ x ∈ rest, s.«end» ≤ x.start := by
  intro rest
  induction rest generalizing s with
  | nil => simp
  | cons t ts ih =>
    intro hch hse x hx
    have h1 : s.«end» ≤ t.start := (List.chain'_cons.mp hch).1
    rcases List.mem_cons.mp hx with h | h
    · exact h ▸ h1
    · have h2 := ih t (List.chain'_cons.mp hch).2
        (fun y hy => hse y (by simp [hy])) x h
      have h3 : t.start ≤ t.«end» := hse t (by simp)
      omega

theorem specRedact_prefix (text : List Char) (modes : RedactionConfig) :
    ∀ spans last,
      List.Chain' (fun a b => a.«end» ≤ b.start) spans →
      (∀ s ∈ spans, last ≤ s.start ∧ s.start ≤ s.«end» ∧ s.«end» ≤ text.length) →
      applyGo text modes last spans = (specRedact text modes spans).drop last := by
  intro spans
  induction spans with
  | nil => intro last _ _; rfl
  | cons s rest ih =>
    intro last hch hb
    have hbs := hb s (by simp)
    have hlen_take : (text.take s.start).length = s.start := by
      rw [List.length_take]
      omega
    have hchr : List.Chain' (fun a b => a.«end» ≤ b.start) rest :=
      (List.chain'_cons'.mp hch).2
    have hrest_start : ∀ x ∈ rest, s.«end» ≤ x.start :=
      chain_end_le s rest hch (fun x hx => (hb x (by simp [hx])).2.1)
    have hbrest : ∀ x ∈ rest,
        s.«end» ≤ x.start ∧ x.start ≤ x.«end» ∧ x.«end» ≤ text.length := by
      intro x hx
      exact ⟨hrest_start x hx, (hb x (by simp [hx])).2.1, (hb x (by simp [hx])).2.2⟩
    simp only [applyGo, specRedact]
    rw [List.append_assoc, List.append_assoc]
    rw [List.drop_append_of_le_length (by rw [hlen_take]; exact hbs.1)]
    rw [ih s.«end» hchr hbrest]
    congr 1
    rw [List.drop_take]
    rfl

/-- Lower-case hexadecimal alphabet membership. -/
def isHexLower (c : Char) : Bool := c.isDigit || ('a' ≤ c && c ≤ 'f')

theorem compressStep_length (k w : Nat) (st : List Nat) :
    (compressStep k w st).length = st.length := by
  unfold compressStep
  split <;> simp

theorem foldl_compressStep_length (kws : List (Nat × Nat)) :
    ∀ st : List Nat,
      (kws.foldl (fun s kw => compressStep kw.1 kw.2 s) st).length = st.length := by
  induction kws with
  | nil => intro st; rfl
  | cons kw rest ih =>
    intro st
    simp only [List.foldl_cons]
    rw [ih, compressStep_length]

theorem compressBlock_length (st block : List Nat) (h : st.length = 8) :
    (compressBlock st block).length = 8 := by
  unfold compressBlock
  rw [List.length_zipWith, foldl_compressStep_length, h]
  simp

theorem sha256Words_length (msg : List Nat) : (sha256Words msg).length = 8 := by
  unfold sha256Words
  generalize chunk16 (toWords (padMessage msg)) = chunks
  have : ∀ (cs : List (List Nat)) (st : List Nat), st.length = 8 →
      (cs.foldl compressBlock st).length = 8 := by
    intro cs
    induction cs with
    | nil => intro st h; exact h
    | cons b bs ih =>
      intro st h
      simp only [List.foldl_cons]
      exact ih _ (compressBlock_length st b h)
  exact this chunks sha256H0 (by rfl)

theorem sha256Hex_length (v : List Char) : (sha256Hex v).length = 64 := by
  unfold sha256Hex
  have hgen : ∀ ws : List Nat,
      (ws.foldr (fun w acc => wordHex w ++ acc) []).length = 8 * ws.length := by
    intro ws
    induction ws with
    | nil => rfl
    | cons w rest ih =>
      simp only [List.foldr_cons, List.length_append, ih, List.length_cons]
      have hwl : (wordHex w).length = 8 := rfl
      rw [hwl]
      omega
  rw [hgen, sha256Words_length]

theorem hexDigit_hex (n : Nat) (h : n < 16) : isHexLower (hexDigit n) = true := by
  interval_cases n <;> decide

theorem sha256Hex_all_hex (v : List Char) :
    ∀ c ∈ sha256Hex v, isHexLower c = true := by
  unfold sha256Hex
  have hw : ∀ (w : Nat) (c : Char), c ∈ wordHex w → isHexLower c = true := by
    intro w c hc
    simp only [wordHex, List.mem_cons, List.not_mem_nil, or_false] at hc
    rcases hc with h | h | h | h | h | h | h | h <;>
      (rw [h]; exact hexDigit_hex _ (Nat.mod_lt _ (by norm_num)))
  generalize sha256Words (encodeUtf8 v) = ws
  induction ws with
  | nil => simp
  | cons w rest ih =>
    intro c hc
    simp only [List.foldr_cons, List.mem_append] at hc
    rcases hc with h | h
    · exact hw w c h
    · exact ih c h

/-- C3: on a non-overlapping ascending span list within bounds, the redactor
copies the text outside the spans unchanged (it equals the segment-wise
spec formulation) and replaces each span by: `end - start` mask characters
under `mask`, nothing under `drop`, and the tag `[[KIND:h]]` under `hash`,
where `h` is the first 8 (lower-case hex) characters of the SHA-256 digest
of the span's matched substring — a function of the value alone, so equal
substrings always produce equal tags. -/
theorem claim_C3 (text : List Char) (spans : List Span)
    (modes : RedactionConfig) (s : Span)
    (hch : List.Chain' (fun a b => a.«end» ≤ b.start) spans)
    (hb : ∀ t ∈ spans, t.start ≤ t.«end» ∧ t.«end» ≤ text.length)
    (hs : s ∈ spans) :
    applyRedaction text spans modes = specRedact text modes spans ∧
    (modeFor modes s.kind = .mask →
      replacementFor modes s = List.replicate (s.«end» - s.start) '*') ∧
    (modeFor modes s.kind = .drop → replacementFor modes s = []) ∧
    (modeFor modes s.kind = .hash →
      replacementFor modes s = makeTag s.kind s.value ∧
      makeTag s.kind s.value =
        ('[' :: '[' :: kindUpper s.kind) ++
          ':' :: ((sha256Hex s.value).take 8 ++ [']', ']']) ∧
      ((sha256Hex s.value).take 8).length = 8 ∧
      (∀ c ∈ (sha256Hex s.value).take 8, isHexLower c = true)) := by
  refine ⟨?_, ?_, ?_, ?_⟩
  · have := specRedact_prefix text modes spans 0 hch
      (fun t ht => ⟨Nat.zero_le _, (hb t ht).1, (hb t ht).2⟩)
    simpa [applyRedaction] using this
  · intro hm
    simp [replacementFor, hm]
  · intro hm
    simp [replacementFor, hm]
  · intro hm
    refine ⟨by simp [replacementFor, hm], rfl, ?_, ?_⟩
    · rw [List.length_take, sha256Hex_length]
      omega
    · intro c hc
      exact sha256Hex_all_hex s.value c ((List.take_sublist _ _).subset hc)

/-- Concrete text for the C3 witness. -/
def exampleText : List Char := "0123456789".toList

/-- Concrete `id`-kind span (default mode `drop`) for the C3 witness. -/
def exampleDropSpan : Span :=
  { start := 1, «end» := 3, value := ['1', '2'], kind := .id }

/-- Concrete `address`-kind span (default mode `mask`) for the C3 witness. -/
def exampleMaskSpan : Span :=
  { start := 5, «end» := 8, value := ['5', '6', '7'], kind := .address }

/-- Witness for C3 at a concrete text, span list and mode table. -/
theorem claim_C3_witness :
    applyRedaction exampleText [exampleDropSpan, exampleMaskSpan] (fun _ => none) =
      specRedact exampleText (fun _ => none) [exampleDropSpan, exampleMaskSpan] ∧
    (modeFor (fun _ => none) exampleMaskSpan.kind = .mask →
      replacementFor (fun _ => none) exampleMaskSpan =
        List.replicate (exampleMaskSpan.«end» - exampleMaskSpan.start) '*') ∧
    (modeFor (fun _ => none) exampleMaskSpan.kind = .drop →
      replacementFor (fun _ => none) exampleMaskSpan = []) ∧
    (modeFor (fun _ => none) exampleMaskSpan.kind = .hash →
      replacementFor (fun _ => none) exampleMaskSpan =
        makeTag exampleMaskSpan.kind exampleMaskSpan.value ∧
      makeTag exampleMaskSpan.kind exampleMaskSpan.value =
        ('[' :: '[' :: kindUpper exampleMaskSpan.kind) ++
          ':' :: ((sha256Hex exampleMaskSpan.value).take 8 ++ [']', ']']) ∧
      ((sha256Hex exampleMaskSpan.value).take 8).length = 8 ∧
      (∀ c ∈ (sha256Hex exampleMaskSpan.value).take 8, isHexLower c = true)) :=
  claim_C3 exampleText [exampleDropSpan, exampleMaskSpan] (fun _ => none)
    exampleMaskSpan
    (List.chain'_cons.mpr ⟨by decide, List.chain'_singleton _⟩)
    (by decide) (by decide)

/-! ### Locating the layout name candidate in the normalized text
(`locateCandidateInNormalized`) -/

/-- JavaScript `String.prototype.trim` over the `\s` class. -/
def jsTrim (l : List Char) : List Char :=
  ((l.dropWhile isWS).reverse.dropWhile isWS).reverse

/-- Splitting on `/\s+/` (fueled; the fuel is the input length).  Each emitted
token is a maximal non-whitespace run. -/
def splitWsAux : Nat → List Char → List (List Char)
  | _, [] => []
  | 0, _ => []
  | fuel + 1, c :: cs =>
    if isWS c then splitWsAux fuel (cs.dropWhile isWS)
    else ((c :: cs).takeWhile (fun d => !isWS d)) ::
      splitWsAux fuel ((c :: cs).dropWhile (fun d => !isWS d))

/-- JavaScript `trimmed.split(/\s+/)` for an already-trimmed string: the empty
string yields `[""]`, otherwise the maximal non-whitespace runs. -/
def jsSplitWs (l : List Char) : List (List Char) :=
  if l = [] then [[]] else splitWsAux l.length l

/-- Matching of the generated pattern `tok1\s+tok2\s+…` (escaped literal
tokens joined by one-or-more whitespace, case-insensitive) at the head of a
string, returning the rest after the match.  The tokens are whitespace-free,
so the greedy `\s+` needs no backtracking. -/
def matchTokensAt : List (List Char) → List Char → Option (List Char)
  | [], l => some l
  | [t], l => stripCI t l
  | t :: t2 :: ts, l =>
    match stripCI t l with
    | none => none
    | some r =>
      if (r.takeWhile isWS).isEmpty then none
      else matchTokensAt (t2 :: ts) (r.dropWhile isWS)

/-- The `re.exec` scan: try the token pattern at each position left to right
and return the half-open character range of the first match. -/
def execSearchAux (toks : List (List Char)) : List Char → Nat → Option (Nat × Nat)
  | l, i =>
    match matchTokensAt toks l with
    | some r => some (i, i + (l.length - r.length))
    | none =>
      match l with
      | [] => none
      | _ :: cs => execSearchAux toks cs (i + 1)

/-- `locateCandidateInNormalized`: normalize the raw candidate line, split it
into whitespace-separated tokens, and search the normalized document for the
whitespace-tolerant case-insensitive token sequence. -/
def locateCandidateInNormalized (normalizedText cand : List Char) :
    Option (Nat × Nat) :=
  execSearchAux (jsSplitWs (jsTrim (normalizeText cand))) normalizedText 0

/-! ### The engine pipeline (`redactResumeFile`, pure core)

The file-system and PDF-parsing effects of `redactResumeFile` are factored
out: the regex layer's `matchAll` calls are a parameter `matcher` (the
JavaScript regex engine applied to the seven fixed patterns), the layout name
candidate (PDF only) is a parameter, and the optional flagger is a function
that either returns proposals or fails. -/

/-- A flagger proposal `{start, end, label, score?}` (offsets are arbitrary
JavaScript numbers, modelled as integers). -/
structure FlagProposal where
  start : Int
  «end» : Int
  label : Kind
  score : Option ℚ := none
deriving DecidableEq, Repr

/-- The engine's clamping of one flagger proposal:
`start = max(0, min(len, f.start))`, `end = max(start, min(len, f.end))`,
keeping only ranges with `end > start`. -/
def clampProposal (len : Nat) (p : FlagProposal) : Option (Nat × Nat) :=
  let s : Int := max 0 (min (len : Int) p.start)
  let e : Int := max s (min (len : Int) p.«end»)
  if s < e then some (s.toNat, e.toNat) else none

/-- The regex layer `findRegexSpans`, parameterized by the regex engine: for
each kind, every match `(index, matchedText)` becomes a span, and the spans
are stably sorted by start (`out.sort((a, b) => a.start - b.start)`). -/
def findRegexSpans (matcher : Kind → List Char → List (Nat × List Char))
    (t : List Char) : List Span :=
  let scan : Kind → List Span := fun k =>
    (matcher k t).map (fun m =>
      { start := m.1, «end» := m.1 + m.2.length, value := m.2, kind := k,
        source := some .regex })
  (scan .email ++ scan .phone ++ scan .url ++ scan .linkedin ++
    scan .github ++ scan .address ++ scan .id).mergeSort
    (fun a b => a.start ≤ b.start)

/-- Step 4 of `redactResumeFile`: the span pushed for the located layout name
candidate (empty when there is no candidate, the candidate text is empty, or
the candidate cannot be located in the normalized text). -/
def layoutSpans (normalized : List Char)
    (layoutCand : Option (List Char × Option ℚ)) : List Span :=
  match layoutCand with
  | none => []
  | some (ct, cscore) =>
    if ct ≠ [] then
      match locateCandidateInNormalized normalized ct with
      | some (s, e) =>
        [Span.mk s e (jsSlice normalized s e) .name (some .layout) cscore]
      | none => []
    else []

/-- Step 5 of `redactResumeFile`: the clamped surviving proposals of the
flagger; a flagger failure is caught and contributes nothing. -/
def flaggerSpans (normalized : List Char)
    (flagger : Option (List Char → Except Unit (List FlagProposal))) :
    List Span :=
  match flagger with
  | none => []
  | some f =>
    match f normalized with
    | .error _ => []
    | .ok fl =>
      fl.filterMap (fun p =>
        (clampProposal normalized.length p).map (fun se =>
          Span.mk se.1 se.2 (jsSlice normalized se.1 se.2) p.label
            (some .flagger) p.score))

/-- Steps 3–5 of `redactResumeFile`: regex spans over the normalized text,
then the located layout name span, then the flagger's clamped proposals
(`spans.push` appends, so the collected list is this concatenation). -/
def collectSpans (matcher : Kind → List Char → List (Nat × List Char))
    (normalized : List Char) (layoutCand : Option (List Char × Option ℚ))
    (flagger : Option (List Char → Except Unit (List FlagProposal))) :
    List Span :=
  findRegexSpans matcher normalized ++ layoutSpans normalized layoutCand ++
    flaggerSpans normalized flagger

/-- The per-kind tally `counts[s.kind] = (counts[s.kind] || 0) + 1` on a
JavaScript object, modelled as an association list in key-insertion order. -/
def bumpCount (m : List (Kind × Nat)) (k : Kind) : List (Kind × Nat) :=
  if m.any (fun p => p.1 = k) then
    m.map (fun p => if p.1 = k then (p.1, p.2 + 1) else p)
  else m ++ [(k, 1)]

/-- The counts object of step 7 of `redactResumeFile`. -/
def countsOf (spans : List Span) : List (Kind × Nat) :=
  spans.foldl (fun m s => bumpCount m s.kind) []

/-- The in-memory result of the pure pipeline (the `Result` fields that do
not depend on the file system, plus the report's `total_spans`). -/
structure CoreResult where
  redactedText : List Char
  fileHashSha256 : List Char
  hits : List Span
  counts : List (Kind × Nat)
  totalSpans : Nat
deriving DecidableEq, Repr

/-- The pure computation of `redactResumeFile` between reading the document
and writing the outputs: normalize, collect detector spans, resolve, redact
with the caller's modes overlaid on the defaults, and tally. -/
def redactCore (matcher : Kind → List Char → List (Nat × List Char))
    (rawText : List Char) (layoutCand : Option (List Char × Option ℚ))
    (flagger : Option (List Char → Except Unit (List FlagProposal)))
    (modesOv : RedactionConfig) : CoreResult :=
  let normalized := normalizeText rawText
  let spans := mergeAndDedupe (collectSpans matcher normalized layoutCand flagger)
  let modes : RedactionConfig := fun k => some ((modesOv k).getD (defaultModes k))
  { redactedText := applyRedaction normalized spans modes
    fileHashSha256 := sha256Hex rawText
    hits := spans
    counts := countsOf spans
    totalSpans := spans.length }

/-- C5: when the supplied flagger fails (rejects or throws) on the normalized
text, the engine's entire result — redacted text, hash, hits, counts, total —
is the one obtained with an empty flagger contribution: the run with the
failing flagger equals the run without a flagger. -/
theorem claim_C5 (matcher : Kind → List Char → List (Nat × List Char))
    (raw : List Char) (layoutCand : Option (List Char × Option ℚ))
    (f : List Char → Except Unit (List FlagProposal)) (modesOv : RedactionConfig)
    (hf : f (normalizeText raw) = Except.error ()) :
    redactCore matcher raw layoutCand (some f) modesOv =
      redactCore matcher raw layoutCand none modesOv := by
  dsimp only [redactCore, collectSpans, flaggerSpans]
  rw [hf]

/-- Witness for C5: a flagger that always throws leaves a concrete document's
result identical to the flagger-free run. -/
theorem claim_C5_witness :
    redactCore (fun _ _ => []) ("x (at) y".toList) none
        (some fun _ => Except.error ()) (fun _ => none) =
      redactCore (fun _ _ => []) ("x (at) y".toList) none none (fun _ => none) :=
  claim_C5 (fun _ _ => []) ("x (at) y".toList) none
    (fun _ => Except.error ()) (fun _ => none) rfl

/-- C10: redaction with an empty span list returns the text unchanged, so
when no detector emits any span the engine returns the normalized input text
— which, as the concrete tab-collapsing document shows, can differ from the
original raw text. -/
theorem claim_C10 (text raw : List Char) (modes modesOv : RedactionConfig) :
    applyRedaction text [] modes = text ∧
    (redactCore (fun _ _ => []) raw none none modesOv).redactedText =
      normalizeText raw ∧
    (redactCore (fun _ _ => []) ("a\t\tb".toList) none none
        (fun _ => none)).redactedText ≠ "a\t\tb".toList := by
  have hempty : ∀ (t : List Char) (m : RedactionConfig),
      applyRedaction t [] m = t := by
    intro t m
    simp [applyRedaction, applyGo]
  have hcore : ∀ (r : List Char) (mo : RedactionConfig),
      (redactCore (fun _ _ => []) r none none mo).redactedText =
        normalizeText r := by
    intro r mo
    unfold redactCore collectSpans findRegexSpans layoutSpans flaggerSpans
    simp only [List.map_nil, List.append_nil, List.nil_append]
    rw [List.mergeSort_nil]
    simp only [mergeAndDedupe, sortSpans, List.mergeSort_nil, List.foldl_nil,
      List.reverse_nil]
    exact hempty _ _
  refine ⟨hempty text modes, hcore raw modesOv, ?_⟩
  rw [hcore]
  decide

theorem lookup_map_bump (k0 k : Kind) :
    ∀ m : List (Kind × Nat),
      (m.map (fun p => if p.1 = k0 then (p.1, p.2 + 1) else p)).lookup k =
        (m.lookup k).map (fun n => if k = k0 then n + 1 else n) := by
  intro m
  induction m with
  | nil => rfl
  | cons p ps ih =>
    by_cases hp : p.1 = k0
    · simp only [List.map_cons, if_pos hp]
      by_cases hk : k = p.1
      · simp [List.lookup, hk, hp]
      · have : (k == p.1) = false := by simp [hk]
        simp only [List.lookup, this]
        exact ih
    · simp only [List.map_cons, if_neg hp]
      by_cases hk : k = p.1
      · have hkk0 : ¬ k = k0 := by
          rw [hk]
          exact hp
        simp [List.lookup, hk, hkk0, hp]
      · have : (k == p.1) = false := by simp [hk]
        simp only [List.lookup, this]
        exact ih

theorem lookup_none_of_not_any (k : Kind) :
    ∀ m : List (Kind × Nat), m.any (fun p => p.1 = k) = false →
      m.lookup k = none := by
  intro m
  induction m with
  | nil => intro _; rfl
  | cons p ps ih =>
    intro h
    simp only [List.any_cons, Bool.or_eq_false_iff] at h
    have hk : ¬ k = p.1 := fun he => by simp [he.symm] at h
    have : (k == p.1) = false := by simp [hk]
    simp only [List.lookup, this]
    exact ih h.2

theorem lookup_some_of_any (k : Kind) :
    ∀ m : List (Kind × Nat), m.any (fun p => p.1 = k) = true →
      ∃ n, m.lookup k = some n := by
  intro m
  induction m with
  | nil => intro h; simp at h
  | cons p ps ih =>
    intro h
    by_cases hk : k = p.1
    · exact ⟨p.2, by simp [List.lookup, hk]⟩
    · have hb : (k == p.1) = false := by simp [hk]
      simp only [List.lookup, hb]
      apply ih
      simp only [List.any_cons, Bool.or_eq_true] at h
      rcases h with h | h
      · exfalso
        simp only [decide_eq_true_eq] at h
        exact hk h.symm
      · exact h

theorem lookup_append_pairs (k : Kind) :
    ∀ (m1 m2 : List (Kind × Nat)),
      (m1 ++ m2).lookup k =
        (match m1.lookup k with
          | some n => some n
          | none => m2.lookup k) := by
  intro m1 m2
  induction m1 with
  | nil => rfl
  | cons p ps ih =>
    by_cases hk : k = p.1
    · simp [List.lookup, hk]
    · have hb : (k == p.1) = false := by simp [hk]
      simp only [List.cons_append, List.lookup, hb]
      exact ih

theorem bumpCount_lookup (m : List (Kind × Nat)) (k0 k : Kind) :
    (bumpCount m k0).lookup k =
      if k = k0 then
        (match m.lookup k0 with
          | none => some 1
          | some n => some (n + 1))
      else m.lookup k := by
  unfold bumpCount
  by_cases hany : m.any (fun p => p.1 = k0) = true
  · rw [if_pos hany, lookup_map_bump]
    by_cases hk : k = k0
    · obtain ⟨n, hn⟩ := lookup_some_of_any k0 m hany
      subst hk
      simp [hn]
    · simp [hk]
  · rw [if_neg hany, lookup_append_pairs]
    have hanyf : m.any (fun p => p.1 = k0) = false := by
      cases h : m.any (fun p => p.1 = k0)
      · rfl
      · exact absurd h hany
    have hnone : m.lookup k0 = none := lookup_none_of_not_any k0 m hanyf
    by_cases hk : k = k0
    · subst hk
      rw [hnone]
      simp [List.lookup]
    · rw [if_neg hk]
      cases hm : m.lookup k with
      | some n => rfl
      | none =>
        have hb : (k == k0) = false := by simp [hk]
        simp [List.lookup, hb]

theorem foldl_bump_lookup_some (k : Kind) :
    ∀ (spans : List Span) (m : List (Kind × Nat)) (n : Nat),
      m.lookup k = some n →
      (spans.foldl (fun acc s => bumpCount acc s.kind) m).lookup k =
        some (n + spans.countP (fun s => s.kind == k)) := by
  intro spans
  induction spans with
  | nil =>
    intro m n hm
    simpa using hm
  | cons s rest ih =>
    intro m n hm
    simp only [List.foldl_cons, List.countP_cons]
    have hb := bumpCount_lookup m s.kind k
    by_cases hk : k = s.kind
    · rw [if_pos hk, ← hk, hm] at hb
      have hb2 : (bumpCount m k).lookup k = some (n + 1) := hb
      nth_rewrite 2 [hk] at hb2
      rw [ih _ _ hb2]
      have hbeq : (s.kind == k) = true := by simp [hk]
      simp only [hbeq, if_true]
      congr 1
      omega
    · rw [if_neg hk, hm] at hb
      rw [ih _ _ hb]
      have hbeq : (s.kind == k) = false := by
        simp only [beq_eq_false_iff_ne, ne_eq]
        exact fun he => hk he.symm
      simp [hbeq]

theorem foldl_bump_lookup_none (k : Kind) :
    ∀ (spans : List Span) (m : List (Kind × Nat)),
      m.lookup k = none →
      (spans.foldl (fun acc s => bumpCount acc s.kind) m).lookup k =
        (if spans.countP (fun s => s.kind == k) = 0 then none
          else some (spans.countP (fun s => s.kind == k))) := by
  intro spans
  induction spans with
  | nil =>
    intro m hm
    simpa using hm
  | cons s rest ih =>
    intro m hm
    simp only [List.foldl_cons, List.countP_cons]
    have hb := bumpCount_lookup m s.kind k
    by_cases hk : k = s.kind
    · rw [if_pos hk, ← hk, hm] at hb
      have hb2 : (bumpCount m k).lookup k = some 1 := hb
      nth_rewrite 2 [hk] at hb2
      rw [foldl_bump_lookup_some k rest _ _ hb2]
      have hbeq : (s.kind == k) = true := by simp [hk]
      simp only [hbeq, if_true]
      rw [if_neg (by omega)]
      congr 1
      omega
    · rw [if_neg hk, hm] at hb
      rw [ih _ hb]
      have hbeq : (s.kind == k) = false := by
        simp only [beq_eq_false_iff_ne, ne_eq]
        exact fun he => hk he.symm
      simp [hbeq]

theorem countsOf_lookup (spans : List Span) (k : Kind) :
    (countsOf spans).lookup k =
      (if spans.countP (fun s => s.kind == k) = 0 then none
        else some (spans.countP (fun s => s.kind == k))) :=
  foldl_bump_lookup_none k spans [] rfl

/-- The sum of the recorded per-kind counts. -/
def sumVals (m : List (Kind × Nat)) : Nat := (m.map (fun p => p.2)).sum

/-- Key lists of count objects are duplicate-free. -/
def KeysNodup (m : List (Kind × Nat)) : Prop := (m.map Prod.fst).Nodup

theorem map_bump_eq_self (k0 : Kind) :
    ∀ m : List (Kind × Nat), k0 ∉ m.map Prod.fst →
      m.map (fun p => if p.1 = k0 then (p.1, p.2 + 1) else p) = m := by
  intro m
  induction m with
  | nil => intro _; rfl
  | cons p ps ih =>
    intro h
    simp only [List.map_cons, List.mem_cons] at h
    push_neg at h
    rw [List.map_cons, if_neg (fun he => h.1 he.symm), ih h.2]

theorem bumpCount_keys (m : List (Kind × Nat)) (k0 : Kind) :
    (bumpCount m k0).map Prod.fst =
      (if m.any (fun p => p.1 = k0) = true then m.map Prod.fst
        else m.map Prod.fst ++ [k0]) := by
  unfold bumpCount
  by_cases h : m.any (fun p => p.1 = k0) = true
  · rw [if_pos h, if_pos h, List.map_map]
    congr 1
    funext p
    by_cases hp : p.1 = k0 <;> simp [hp]
  · rw [if_neg h, if_neg h, List.map_append]
    rfl

theorem not_mem_keys_of_not_any (m : List (Kind × Nat)) (k0 : Kind)
    (h : m.any (fun p => p.1 = k0) = false) : k0 ∉ m.map Prod.fst := by
  intro hmem
  simp only [List.any_eq_false, decide_eq_true_eq] at h
  obtain ⟨p, hp, hfst⟩ := List.mem_map.mp hmem
  exact h p hp hfst

theorem bumpCount_nodup (m : List (Kind × Nat)) (k0 : Kind)
    (h : KeysNodup m) : KeysNodup (bumpCount m k0) := by
  unfold KeysNodup at *
  rw [bumpCount_keys]
  by_cases hany : m.any (fun p => p.1 = k0) = true
  · rwa [if_pos hany]
  · rw [if_neg hany]
    have : k0 ∉ m.map Prod.fst := by
      apply not_mem_keys_of_not_any
      cases hx : m.any (fun p => p.1 = k0)
      · rfl
      · exact absurd hx hany
    simp [List.nodup_append, h, this]

theorem sumVals_bump (k0 : Kind) :
    ∀ m : List (Kind × Nat), KeysNodup m →
      sumVals (bumpCount m k0) = sumVals m + 1 := by
  intro m
  induction m with
  | nil =>
    intro _
    rfl
  | cons p ps ih =>
    intro hnd
    unfold KeysNodup at hnd
    simp only [List.map_cons, List.nodup_cons] at hnd
    unfold bumpCount
    by_cases hany : (p :: ps).any (fun q => q.1 = k0) = true
    · rw [if_pos hany]
      by_cases hp : p.1 = k0
      · have hk0 : k0 ∉ ps.map Prod.fst := hp ▸ hnd.1
        simp only [List.map_cons, if_pos hp, map_bump_eq_self k0 ps hk0]
        simp [sumVals]
        omega
      · have hps : ps.any (fun q => q.1 = k0) = true := by
          simp only [List.any_cons, Bool.or_eq_true] at hany
          rcases hany with h | h
          · exact absurd (by simpa using h) hp
          · exact h
        have := ih hnd.2
        unfold bumpCount at this
        rw [if_pos hps] at this
        simp only [List.map_cons, if_neg hp]
        simp only [sumVals, List.map_cons, List.sum_cons] at this ⊢
        omega
    · rw [if_neg hany]
      simp [sumVals]
      omega

theorem countsOf_sum (spans : List Span) :
    sumVals (countsOf spans) = spans.length := by
  have hgen : ∀ (sp : List Span) (m : List (Kind × Nat)), KeysNodup m →
      sumVals (sp.foldl (fun acc s => bumpCount acc s.kind) m) =
        sumVals m + sp.length := by
    intro sp
    induction sp with
    | nil => intro m _; simp
    | cons s rest ih =>
      intro m hnd
      simp only [List.foldl_cons, List.length_cons]
      rw [ih _ (bumpCount_nodup m s.kind hnd), sumVals_bump s.kind m hnd]
      omega
  have := hgen spans [] (by simp [KeysNodup])
  simpa [countsOf, sumVals] using this

/-- C9: the engine's counts object is exactly the per-kind tally of the
resolved span list: looking up a kind yields its number of occurrences among
the hits (with no entry at all for kinds with zero spans), the values sum to
the number of hits, and the report's `total_spans` equals the number of
hits. -/
theorem claim_C9 (matcher : Kind → List Char → List (Nat × List Char))
    (raw : List Char) (layoutCand : Option (List Char × Option ℚ))
    (flagger : Option (List Char → Except Unit (List FlagProposal)))
    (modesOv : RedactionConfig) (k : Kind) :
    (redactCore matcher raw layoutCand flagger modesOv).counts =
      countsOf (redactCore matcher raw layoutCand flagger modesOv).hits ∧
    ((redactCore matcher raw layoutCand flagger modesOv).counts.lookup k =
      if (redactCore matcher raw layoutCand flagger modesOv).hits.countP
          (fun s => s.kind == k) = 0 then none
      else some ((redactCore matcher raw layoutCand flagger modesOv).hits.countP
          (fun s => s.kind == k))) ∧
    (((redactCore matcher raw layoutCand flagger modesOv).counts.map
        (fun p => p.2)).sum =
      (redactCore matcher raw layoutCand flagger modesOv).hits.length) ∧
    (redactCore matcher raw layoutCand flagger modesOv).totalSpans =
      (redactCore matcher raw layoutCand flagger modesOv).hits.length := by
  refine ⟨rfl, ?_, ?_, rfl⟩
  · exact countsOf_lookup _ k
  · exact countsOf_sum _

/-! ### File outputs of `redactResumeFile` (step 7)

The source reads the input, computes the pure core, and then issues two
sequential `fs.writeFile` calls — first `<base>.redacted.txt`, then
`<base>.pii.report.json` — with no cleanup and no write-then-rename.  The
effects are modelled by three success flags (read, first write, second
write): a failing operation throws, so no later operation runs, and files
already written stay on disk. -/

/-- The on-disk and control-flow outcome of one invocation:
which of the two output files exist afterwards, and whether the invocation
returned normally. -/
structure FileOutcome where
  redactedFile : Option (List Char)
  reportFile : Option (List (Kind × Nat) × Nat)
  ok : Bool
deriving DecidableEq, Repr

/-- The whole `redactResumeFile` invocation with its effects: read (fatal on
failure, before anything is written), pure core, write the redacted text,
then write the report (whose modelled content is the counts object and
`total_spans`). -/
def redactFileModel (readOk w1ok w2ok : Bool)
    (matcher : Kind → List Char → List (Nat × List Char))
    (rawText : List Char) (layoutCand : Option (List Char × Option ℚ))
    (flagger : Option (List Char → Except Unit (List FlagProposal)))
    (modesOv : RedactionConfig) : FileOutcome :=
  if readOk = false then
    { redactedFile := none, reportFile := none, ok := false }
  else
    let core := redactCore matcher rawText layoutCand flagger modesOv
    if w1ok = false then
      { redactedFile := none, reportFile := none, ok := false }
    else if w2ok = false then
      { redactedFile := some core.redactedText, reportFile := none, ok := false }
    else
      { redactedFile := some core.redactedText,
        reportFile := some (core.counts, core.totalSpans), ok := true }

/-- C8 (counterexample): when the redacted-text write succeeds but the report
write fails, the invocation fails yet `<base>.redacted.txt` exists while the
report does not — output files are not all-or-nothing on failure. -/
theorem claim_C8_counterexample :
    (redactFileModel true true false (fun _ _ => []) ("hi".toList) none none
        (fun _ => none)).ok = false ∧
    (redactFileModel true true false (fun _ _ => []) ("hi".toList) none none
        (fun _ => none)).redactedFile.isSome = true ∧
    (redactFileModel true true false (fun _ _ => []) ("hi".toList) none none
        (fun _ => none)).reportFile = none := by
  refine ⟨rfl, rfl, rfl⟩

/-- C8 (amended): an unreadable or corrupt input produces no output files,
and a failure of the first (redacted-text) write also leaves no output files;
when both writes succeed, both files exist and the invocation succeeds.  But
the two files are written sequentially without cleanup, so a failure of the
report write leaves the redacted file on disk alone. -/
theorem claim_C8 (w2ok : Bool)
    (matcher : Kind → List Char → List (Nat × List Char))
    (rawText : List Char) (layoutCand : Option (List Char × Option ℚ))
    (flagger : Option (List Char → Except Unit (List FlagProposal)))
    (modesOv : RedactionConfig) :
    redactFileModel false true w2ok matcher rawText layoutCand flagger modesOv =
      { redactedFile := none, reportFile := none, ok := false } ∧
    redactFileModel true false w2ok matcher rawText layoutCand flagger modesOv =
      { redactedFile := none, reportFile := none, ok := false } ∧
    (redactFileModel true true true matcher rawText layoutCand flagger
        modesOv).redactedFile.isSome = true ∧
    (redactFileModel true true true matcher rawText layoutCand flagger
        modesOv).reportFile.isSome = true ∧
    (redactFileModel true true true matcher rawText layoutCand flagger
        modesOv).ok = true ∧
    (redactFileModel true true false matcher rawText layoutCand flagger
        modesOv).redactedFile.isSome = true ∧
    (redactFileModel true true false matcher rawText layoutCand flagger
        modesOv).reportFile = none := by
  refine ⟨rfl, rfl, rfl, rfl, rfl, rfl, rfl⟩

/-! ### Validity of emitted spans (claim C6) -/

theorem matchTokensAt_le :
    ∀ (toks : List (List Char)) (l r : List Char),
      matchTokensAt toks l = some r → r.length ≤ l.length := by
  intro toks
  induction toks with
  | nil =>
    intro l r h
    simp only [matchTokensAt] at h
    simp [← Option.some_inj.mp h]
  | cons t ts ih =>
    intro l r h
    cases ts with
    | nil =>
      simp only [matchTokensAt] at h
      have := stripCI_length t l r h
      omega
    | cons t2 ts2 =>
      simp only [matchTokensAt] at h
      cases hm : stripCI t l with
      | none => rw [hm] at h; exact absurd h (by simp)
      | some r1 =>
        rw [hm] at h
        have hif : (if (r1.takeWhile isWS).isEmpty = true then none
            else matchTokensAt (t2 :: ts2) (r1.dropWhile isWS)) = some r := h
        by_cases hws : (r1.takeWhile isWS).isEmpty = true
        · rw [if_pos hws] at hif
          exact absurd hif (by simp)
        · rw [if_neg hws] at hif
          have h1 := stripCI_length t l r1 hm
          have h2 := ih (r1.dropWhile isWS) r hif
          have h3 : (r1.dropWhile isWS).length ≤ r1.length :=
            (List.dropWhile_sublist _).length_le
          omega

theorem matchTokensAt_lt (t : List Char) (ts : List (List Char))
    (hne : t ≠ []) :
    ∀ l r, matchTokensAt (t :: ts) l = some r → r.length < l.length := by
  intro l r h
  have htlen : 1 ≤ t.length := by
    cases t with
    | nil => exact absurd rfl hne
    | cons a as => simp
  cases ts with
  | nil =>
    simp only [matchTokensAt] at h
    have := stripCI_length t l r h
    omega
  | cons t2 ts2 =>
    simp only [matchTokensAt] at h
    cases hm : stripCI t l with
    | none => rw [hm] at h; exact absurd h (by simp)
    | some r1 =>
      rw [hm] at h
      have hif : (if (r1.takeWhile isWS).isEmpty = true then none
          else matchTokensAt (t2 :: ts2) (r1.dropWhile isWS)) = some r := h
      by_cases hws : (r1.takeWhile isWS).isEmpty = true
      · rw [if_pos hws] at hif
        exact absurd hif (by simp)
      · rw [if_neg hws] at hif
        have h1 := stripCI_length t l r1 hm
        have h2 := matchTokensAt_le (t2 :: ts2) (r1.dropWhile isWS) r hif
        have h3 : (r1.dropWhile isWS).length ≤ r1.length :=
          (List.dropWhile_sublist _).length_le
        omega

theorem execSearchAux_spec (t : List Char) (ts : List (List Char))
    (hne : t ≠ []) :
    ∀ (l : List Char) (i a b : Nat),
      execSearchAux (t :: ts) l i = some (a, b) →
      i ≤ a ∧ a < b ∧ b ≤ i + l.length := by
  intro l
  induction l with
  | nil =>
    intro i a b h
    simp only [execSearchAux] at h
    cases hm : matchTokensAt (t :: ts) [] with
    | some r =>
      exfalso
      have := matchTokensAt_lt t ts hne [] r hm
      simp at this
    | none => rw [hm] at h; exact absurd h (by simp)
  | cons c cs ih =>
    intro i a b h
    simp only [execSearchAux] at h
    cases hm : matchTokensAt (t :: ts) (c :: cs) with
    | some r =>
      rw [hm] at h
      have hlt := matchTokensAt_lt t ts hne (c :: cs) r hm
      simp only [Option.some_inj, Prod.mk.injEq] at h
      obtain ⟨ha, hb⟩ := h
      subst ha
      subst hb
      refine ⟨le_rfl, ?_, ?_⟩ <;> simp only [List.length_cons] at * <;> omega
    | none =>
      rw [hm] at h
      have := ih (i + 1) a b h
      simp only [List.length_cons]
      omega

theorem mem_dropWhile_of_not (p : Char → Bool) (x : Char) (hx : p x = false) :
    ∀ l : List Char, x ∈ l → x ∈ l.dropWhile p := by
  intro l
  induction l with
  | nil => intro h; simp at h
  | cons c cs ih =>
    intro h
    by_cases hc : p c = true
    · rw [List.dropWhile_cons_of_pos hc]
      apply ih
      rcases List.mem_cons.mp h with he | he
      · exfalso
        rw [he] at hx
        rw [hx] at hc
        exact absurd hc (by simp)
      · exact he
    · rw [List.dropWhile_cons_of_neg hc]
      exact h

theorem mem_jsTrim_of_nonws (x : Char) (hx : isWS x = false) (l : List Char)
    (h : x ∈ l) : x ∈ jsTrim l := by
  unfold jsTrim
  rw [List.mem_reverse]
  apply mem_dropWhile_of_not _ _ hx
  rw [List.mem_reverse]
  exact mem_dropWhile_of_not _ _ hx _ h

theorem splitWsAux_tok_ne :
    ∀ fuel l t, t ∈ splitWsAux fuel l → t ≠ [] := by
  intro fuel
  induction fuel with
  | zero =>
    intro l t ht
    cases l <;> simp [splitWsAux] at ht
  | succ k ih =>
    intro l t ht
    cases l with
    | nil => simp [splitWsAux] at ht
    | cons c cs =>
      simp only [splitWsAux] at ht
      by_cases hc : isWS c = true
      · rw [if_pos hc] at ht
        exact ih _ _ ht
      · rw [if_neg hc] at ht
        rcases List.mem_cons.mp ht with he | he
        · rw [he]
          rw [List.takeWhile_cons_of_pos (by simp [hc])]
          simp
        · exact ih _ _ he

theorem splitWsAux_ne_nil :
    ∀ fuel l, (∃ x ∈ l, isWS x = false) → l.length ≤ fuel →
      splitWsAux fuel l ≠ [] := by
  intro fuel
  induction fuel with
  | zero =>
    intro l hex hlen
    have : l = [] := List.eq_nil_of_length_eq_zero (Nat.le_zero.mp hlen)
    subst this
    simp at hex
  | succ k ih =>
    intro l hex hlen
    cases l with
    | nil => simp at hex
    | cons c cs =>
      simp only [splitWsAux]
      by_cases hc : isWS c = true
      · rw [if_pos hc]
        obtain ⟨x, hx, hxws⟩ := hex
        have hxcs : x ∈ cs := by
          rcases List.mem_cons.mp hx with he | he
          · exfalso
            rw [he] at hxws
            rw [hxws] at hc
            exact absurd hc (by simp)
          · exact he
        have hxd : x ∈ cs.dropWhile isWS := mem_dropWhile_of_not _ _ hxws _ hxcs
        have hlen2 : (cs.dropWhile isWS).length ≤ k := by
          have := (List.dropWhile_sublist (l := cs) isWS).length_le
          simp only [List.length_cons] at hlen
          omega
        exact ih _ ⟨x, hxd, hxws⟩ hlen2
      · rw [if_neg hc]
        simp

/-- Validity of one span built from a regex match satisfying the `matchAll`
contract. -/
theorem findRegexSpans_valid (matcher : Kind → List Char → List (Nat × List Char))
    (n : List Char)
    (hmatch : ∀ k, ∀ p ∈ matcher k n, p.2 ≠ [] ∧ p.1 + p.2.length ≤ n.length ∧
      p.2 = jsSlice n p.1 (p.1 + p.2.length))
    (s : Span) (hs : s ∈ findRegexSpans matcher n) :
    s.start < s.«end» ∧ s.«end» ≤ n.length ∧
      s.value = jsSlice n s.start s.«end» := by
  have hcase : ∀ (k : Kind) (p : Nat × List Char), p ∈ matcher k n →
      Span.mk p.1 (p.1 + p.2.length) p.2 k (some .regex) none = s →
      s.start < s.«end» ∧ s.«end» ≤ n.length ∧
        s.value = jsSlice n s.start s.«end» := by
    intro k p hp he
    obtain ⟨hne, hle, hv⟩ := hmatch k p hp
    subst he
    refine ⟨?_, hle, hv⟩
    have : 0 < p.2.length := List.length_pos.mpr hne
    simp only [Span.mk.injEq] at *
    omega
  unfold findRegexSpans at hs
  rw [List.mem_mergeSort] at hs
  simp only [List.mem_append, List.mem_map] at hs
  rcases hs with ((((((⟨p, hp, he⟩ | ⟨p, hp, he⟩) | ⟨p, hp, he⟩) | ⟨p, hp, he⟩) |
      ⟨p, hp, he⟩) | ⟨p, hp, he⟩) | ⟨p, hp, he⟩) <;>
    exact hcase _ p hp he

/-- Survival of a non-whitespace character through normalization. -/
theorem normalizeText_nonws (l : List Char)
    (h : ∃ c ∈ l, isWS c = false) :
    ∃ c ∈ normalizeText l, isWS c = false := by
  have h1 : ∃ c ∈ replacePat '(' patAtPar '@' (nfkcModel l), isWS c = false :=
    replacePat_nonws '(' patAtPar '@' (by decide) _ _ h
  have h2 : ∃ c ∈ replacePat '[' patAtBr '@'
      (replacePat '(' patAtPar '@' (nfkcModel l)), isWS c = false :=
    replacePat_nonws '[' patAtBr '@' (by decide) _ _ h1
  have h3 : ∃ c ∈ replacePat '(' patDotPar '.'
      (replacePat '[' patAtBr '@' (replacePat '(' patAtPar '@' (nfkcModel l))),
      isWS c = false :=
    replacePat_nonws '(' patDotPar '.' (by decide) _ _ h2
  have h4 : ∃ c ∈ replacePat '[' patDotBr '.'
      (replacePat '(' patDotPar '.' (replacePat '[' patAtBr '@'
        (replacePat '(' patAtPar '@' (nfkcModel l)))), isWS c = false :=
    replacePat_nonws '[' patDotBr '.' (by decide) _ _ h3
  have h5 : ∃ c ∈ collapseWs (replacePat '[' patDotBr '.'
      (replacePat '(' patDotPar '.' (replacePat '[' patAtBr '@'
        (replacePat '(' patAtPar '@' (nfkcModel l))))), isWS c = false :=
    collapseWs_nonws _ _ h4
  obtain ⟨x, hx, hxws⟩ := h5
  refine ⟨x, ?_, hxws⟩
  unfold normalizeText removeCR
  rw [List.mem_filter]
  refine ⟨hx, ?_⟩
  simp only [bne_iff_ne, ne_eq]
  intro he
  rw [he] at hxws
  exact absurd hxws (by decide)

/-- Validity of the located layout name range: nonempty and inside the
normalized text, provided the candidate has a non-whitespace character. -/
theorem locate_valid (normalized ct : List Char)
    (hct : ∃ c ∈ ct, isWS c = false) (a b : Nat)
    (h : locateCandidateInNormalized normalized ct = some (a, b)) :
    a < b ∧ b ≤ normalized.length := by
  unfold locateCandidateInNormalized at h
  obtain ⟨x, hx, hxws⟩ := normalizeText_nonws ct hct
  have hxt : x ∈ jsTrim (normalizeText ct) := mem_jsTrim_of_nonws x hxws _ hx
  have htrne : jsTrim (normalizeText ct) ≠ [] := by
    intro he
    rw [he] at hxt
    simp at hxt
  rw [jsSplitWs, if_neg htrne] at h
  have htoksne : splitWsAux (jsTrim (normalizeText ct)).length
      (jsTrim (normalizeText ct)) ≠ [] :=
    splitWsAux_ne_nil _ _ ⟨x, hxt, hxws⟩ le_rfl
  cases htoks : splitWsAux (jsTrim (normalizeText ct)).length
      (jsTrim (normalizeText ct)) with
  | nil => exact absurd htoks htoksne
  | cons t ts =>
    rw [htoks] at h
    have htne : t ≠ [] := splitWsAux_tok_ne _ _ t (htoks ▸ List.mem_cons_self t ts)
    have := execSearchAux_spec t ts htne normalized 0 a b h
    omega

/-- Validity of one clamped flagger range. -/
theorem clampProposal_valid (len : Nat) (p : FlagProposal) (a b : Nat)
    (h : clampProposal len p = some (a, b)) : a < b ∧ b ≤ len := by
  simp only [clampProposal] at h
  split at h
  · rename_i hcond
    simp only [Option.some_inj, Prod.mk.injEq] at h
    obtain ⟨ha, hb⟩ := h
    subst ha
    subst hb
    omega
  · exact absurd h (by simp)

/-- Validity of the layout name span the engine pushes, provided the chosen
candidate line contains a non-whitespace character. -/
theorem layoutSpans_valid (normalized : List Char)
    (layoutCand : Option (List Char × Option ℚ))
    (hlay : ∀ pc ∈ layoutCand.toList, ∃ c ∈ pc.1, isWS c = false)
    (s : Span) (hs : s ∈ layoutSpans normalized layoutCand) :
    s.start < s.«end» ∧ s.«end» ≤ normalized.length ∧
      s.value = jsSlice normalized s.start s.«end» := by
  unfold layoutSpans at hs
  split at hs
  · simp at hs
  · rename_i pc ct cscore
    split at hs
    · split at hs
      · rename_i hct heq a b hloc
        simp only [List.mem_cons, List.not_mem_nil, or_false] at hs
        have hv := locate_valid normalized ct
          (hlay (ct, cscore) (by simp)) a b hloc
        rw [hs]
        exact ⟨hv.1, hv.2, rfl⟩
      · simp at hs
    · simp at hs

/-- Validity of the flagger spans the engine pushes. -/
theorem flaggerSpans_valid (normalized : List Char)
    (flagger : Option (List Char → Except Unit (List FlagProposal)))
    (s : Span) (hs : s ∈ flaggerSpans normalized flagger) :
    s.start < s.«end» ∧ s.«end» ≤ normalized.length ∧
      s.value = jsSlice normalized s.start s.«end» := by
  unfold flaggerSpans at hs
  split at hs
  · simp at hs
  · split at hs
    · simp at hs
    · rename_i f fl hr
      rw [List.mem_filterMap] at hs
      obtain ⟨p, hp, hmap⟩ := hs
      rw [Option.map_eq_some'] at hmap
      obtain ⟨se, hse, hspan⟩ := hmap
      obtain ⟨a, b⟩ := se
      have hv := clampProposal_valid normalized.length p a b hse
      rw [← hspan]
      exact ⟨hv.1, hv.2, rfl⟩

/-- C6: every span the engine collects — regex match, located layout name
span, or clamped surviving flagger proposal — satisfies
`0 ≤ start < end ≤ len(normalizedText)` and carries exactly the covered
substring of the normalized text as its value.  (The regex engine itself is a
parameter; the hypothesis is the `matchAll` contract together with the fact
that none of the seven patterns can match the empty string, and the layout
candidate line always contains a non-whitespace character.) -/
theorem claim_C6 (matcher : Kind → List Char → List (Nat × List Char))
    (raw : List Char) (layoutCand : Option (List Char × Option ℚ))
    (flagger : Option (List Char → Except Unit (List FlagProposal)))
    (hmatch : ∀ k, ∀ p ∈ matcher k (normalizeText raw),
      p.2 ≠ [] ∧ p.1 + p.2.length ≤ (normalizeText raw).length ∧
      p.2 = jsSlice (normalizeText raw) p.1 (p.1 + p.2.length))
    (hlay : ∀ pc ∈ layoutCand.toList, ∃ c ∈ pc.1, isWS c = false)
    (s : Span)
    (hs : s ∈ collectSpans matcher (normalizeText raw) layoutCand flagger) :
    s.start < s.«end» ∧ s.«end» ≤ (normalizeText raw).length ∧
      s.value = jsSlice (normalizeText raw) s.start s.«end» := by
  unfold collectSpans at hs
  rw [List.mem_append, List.mem_append] at hs
  rcases hs with (hs | hs) | hs
  · exact findRegexSpans_valid matcher _ hmatch s hs
  · exact layoutSpans_valid (normalizeText raw) layoutCand hlay s hs
  · exact flaggerSpans_valid (normalizeText raw) flagger s hs

/-- Concrete document for the C6 witness. -/
def exampleRaw : List Char := "John Smith a@b.cc".toList

/-- Concrete regex engine for the C6 witness: one email match satisfying the
`matchAll` contract. -/
def exampleMatcher : Kind → List Char → List (Nat × List Char) :=
  fun k _ => if k = .email then [(11, "a@b.cc".toList)] else []

/-- Concrete flagger for the C6 witness: one proposal with a negative start
(clamped to 0). -/
def exampleFlagger : List Char → Except Unit (List FlagProposal) :=
  fun _ => Except.ok [{ start := -5, «end» := 3, label := .loc }]

/-- The span the engine builds from the clamped flagger proposal of
`exampleFlagger`. -/
def exampleFlagSpan : Span :=
  Span.mk 0 3 ("Joh".toList) .loc (some .flagger) none

/-- Witness for C6: the clamped flagger span on a concrete document satisfies
the span-validity invariant. -/
theorem claim_C6_witness :
    exampleFlagSpan.start < exampleFlagSpan.«end» ∧
    exampleFlagSpan.«end» ≤ (normalizeText exampleRaw).length ∧
    exampleFlagSpan.value = jsSlice (normalizeText exampleRaw)
      exampleFlagSpan.start exampleFlagSpan.«end» :=
  claim_C6 exampleMatcher exampleRaw (some ("john  smith".toList, none))
    (some exampleFlagger) (by decide) (by decide) exampleFlagSpan
    (by unfold collectSpans
        rw [List.mem_append]
        right
        decide)

/-! ### Layout name detector (`chooseNameCandidate`)

The scorer computes over JavaScript floating-point numbers; it is embedded
over the reals (`Math.sqrt` as `Real.sqrt`), which makes the definitions of
this section noncomputable. -/

/-- A first-page layout line (`type LayoutLine`). -/
structure LayoutLineR where
  text : List Char
  y : ℝ
  x : ℝ
  width : ℝ
  maxFont : ℝ
  avgFont : ℝ
  centered : Bool
  bold : Bool
  tokenCount : Nat
  hasDigits : Bool
  hasEmailOrPhone : Bool
  score : Option ℝ := none

noncomputable instance : DecidableEq LayoutLineR := Classical.decEq _

/-- The section-heading word list of `looksLikeHeader`. -/
def headerWords : List (List Char) :=
  ["resume".toList, "curriculum vitae".toList, "cv".toList, "summary".toList,
   "experience".toList, "work experience".toList, "education".toList,
   "skills".toList, "projects".toList, "certifications".toList,
   "publications".toList, "contact".toList, "profile".toList,
   "objective".toList]

/-- The filter `looksLikeHeader`: the trimmed lower-cased line equals a
heading word or starts with one followed by a space. -/
def looksLikeHeader (s : List Char) : Bool :=
  let h := (jsTrim s).map asciiLower
  headerWords.any (fun w => h == w || (w ++ [' ']).isPrefixOf h)

/-- The all-caps test `/^[\p{L}\s'.-]+$/u.test(text) && text ===
text.toUpperCase()`; the letter class and upper-casing are modelled on their
ASCII fragment. -/
def allCapsB (t : List Char) : Bool :=
  !t.isEmpty &&
    t.all (fun c => c.isAlpha || isWS c || c == '\'' || c == '.' || c == '-') &&
    (t.map asciiUpper == t)

/-- `Math.max` over the baselines of the lines (the topmost line). -/
noncomputable def topYOf (lines : List LayoutLineR) : ℝ :=
  match lines with
  | [] => 0
  | l :: ls => (ls.map LayoutLineR.y).foldl max l.y

/-- `Math.min` over the baselines of the lines (the bottommost line). -/
noncomputable def bottomYOf (lines : List LayoutLineR) : ℝ :=
  match lines with
  | [] => 0
  | l :: ls => (ls.map LayoutLineR.y).foldl min l.y

/-- The font-size population mean over all first-page lines. -/
noncomputable def meanFOf (lines : List LayoutLineR) : ℝ :=
  (lines.map LayoutLineR.maxFont).sum / lines.length

/-- The font-size population standard deviation
(`sqrt(Σ (maxFont - mean)² / max(1, length))`). -/
noncomputable def stdFOf (lines : List LayoutLineR) : ℝ :=
  Real.sqrt ((lines.map (fun l => (l.maxFont - meanFOf lines) ^ 2)).sum /
    max 1 (lines.length : ℝ))

/-- The z-score helper `z`: zero when the standard deviation is zero. -/
noncomputable def zOf (lines : List LayoutLineR) (f : ℝ) : ℝ :=
  if 0 < stdFOf lines then (f - meanFOf lines) / stdFOf lines else 0

/-- The candidate score of one line (the body of the scoring `map`). -/
noncomputable def lineScore (lines : List LayoutLineR) (l : LayoutLineR) : ℝ :=
  let yTopPct := (topYOf lines - l.y) /
    (topYOf lines - bottomYOf lines + 1 / 1000000)
  let base := 2.5 * zOf lines l.maxFont + (if l.centered then 1.2 else 0) +
    (if l.bold then 0.6 else 0) - 1.0 * yTopPct
  let base2 := if 2 ≤ l.tokenCount ∧ l.tokenCount ≤ 4 then base + 0.4 else base
  if allCapsB l.text then base2 - 0.2 else base2

/-- The filtered and scored candidate list of `chooseNameCandidate` (before
sorting). -/
noncomputable def scoredCandidates (lines : List LayoutLineR) :
    List LayoutLineR :=
  (((lines.filter (fun l => 1 ≤ l.tokenCount && l.tokenCount ≤ 5)).filter
      (fun l => !l.hasDigits && !l.hasEmailOrPhone)).filter
      (fun l => !looksLikeHeader l.text)).map
    (fun l => { l with score := some (lineScore lines l) })

/-- The score a sorted candidate carries (`l.score!`; candidates always carry
a score). -/
noncomputable def scOf (l : LayoutLineR) : ℝ := l.score.getD 0

/-- The comparator `(a, b) => b.score! - a.score!` as the total preorder the
stable sort is consistent with (`a` stays before `b` iff
`b.score ≤ a.score`). -/
noncomputable def scoreGE (a b : LayoutLineR) : Bool := decide (scOf b ≤ scOf a)

/-- `chooseNameCandidate`: `null` for an empty line list, otherwise the head
of the candidates stably sorted by descending score (`candidates[0] ??
null`). -/
noncomputable def chooseNameCandidate (lines : List LayoutLineR)
    ( _viewportWidth : ℝ) : Option LayoutLineR :=
  if lines.isEmpty then none
  else ((scoredCandidates lines).mergeSort scoreGE).head?

/-- One step of first-maximum selection: keep the current best on ties. -/
noncomputable def pickStep (b y : LayoutLineR) : LayoutLineR :=
  if scOf b < scOf y then y else b

/-- First-maximum selection: the earliest candidate attaining the maximal
score. -/
noncomputable def pickFirstMax : List LayoutLineR → Option LayoutLineR
  | [] => none
  | x :: xs => some (xs.foldl pickStep x)

/-- Modelled from the spec (§4.4, steps 1–4): filter the candidate lines,
score them with the published formula, and select the single highest-scoring
candidate with ties broken in favor of the earlier line. -/
noncomputable def specChooseName (lines : List LayoutLineR) :
    Option LayoutLineR :=
  if lines.isEmpty then none
  else pickFirstMax (scoredCandidates lines)

theorem scoreGE_trans (a b c : LayoutLineR) (h₁ : scoreGE a b = true)
    (h₂ : scoreGE b c = true) : scoreGE a c = true := by
  simp only [scoreGE, decide_eq_true_eq] at *
  exact le_trans h₂ h₁

theorem scoreGE_total (a b : LayoutLineR) : (scoreGE a b || scoreGE b a) = true := by
  simp only [scoreGE, Bool.or_eq_true, decide_eq_true_eq]
  exact le_total (scOf b) (scOf a)

theorem pickStep_left_le (b y : LayoutLineR) : scOf b ≤ scOf (pickStep b y) := by
  unfold pickStep
  split
  · exact le_of_lt (by assumption)
  · exact le_rfl

theorem pickStep_right_le (b y : LayoutLineR) : scOf y ≤ scOf (pickStep b y) := by
  unfold pickStep
  split
  · exact le_rfl
  · exact not_lt.mp (by assumption)

theorem pickFold_max :
    ∀ (xs : List LayoutLineR) (b : LayoutLineR),
      scOf b ≤ scOf (xs.foldl pickStep b) ∧
      ∀ x ∈ xs, scOf x ≤ scOf (xs.foldl pickStep b) := by
  intro xs
  induction xs with
  | nil => intro b; exact ⟨le_rfl, by simp⟩
  | cons x rest ih =>
    intro b
    simp only [List.foldl_cons]
    have h1 := ih (pickStep b x)
    refine ⟨le_trans (pickStep_left_le b x) h1.1, ?_⟩
    intro z hz
    rcases List.mem_cons.mp hz with he | he
    · rw [he]
      exact le_trans (pickStep_right_le b x) h1.1
    · exact h1.2 z he

theorem pickFold_strict :
    ∀ (xs : List LayoutLineR) (b : LayoutLineR),
      xs.foldl pickStep b = b ∨ scOf b < scOf (xs.foldl pickStep b) := by
  intro xs
  induction xs with
  | nil => intro b; exact Or.inl rfl
  | cons x rest ih =>
    intro b
    simp only [List.foldl_cons]
    rcases ih (pickStep b x) with h | h
    · rw [h]
      unfold pickStep
      split
      · exact Or.inr (by assumption)
      · exact Or.inl rfl
    · exact Or.inr (lt_of_le_of_lt (pickStep_left_le b x) h)

theorem pickFold_mem :
    ∀ (xs : List LayoutLineR) (b : LayoutLineR),
      xs.foldl pickStep b = b ∨ xs.foldl pickStep b ∈ xs := by
  intro xs
  induction xs with
  | nil => intro b; exact Or.inl rfl
  | cons x rest ih =>
    intro b
    simp only [List.foldl_cons]
    rcases ih (pickStep b x) with h | h
    · rw [h]
      unfold pickStep
      split
      · exact Or.inr (by simp)
      · exact Or.inl rfl
    · exact Or.inr (by simp [h])

theorem replicate_count_sublist (a : LayoutLineR) :
    ∀ l : List LayoutLineR, (List.replicate (l.count a) a).Sublist l := by
  intro l
  induction l with
  | nil => simp
  | cons b bs ih =>
    by_cases hab : b = a
    · subst hab
      rw [List.count_cons_self, List.replicate_succ]
      exact ih.cons₂ b
    · rw [List.count_cons, if_neg (by simp [hab])]
      exact ih.cons b

theorem pairwise_replicate_of_rel (r : LayoutLineR → LayoutLineR → Prop)
    (a : LayoutLineR) (hr : r a a) :
    ∀ n, List.Pairwise r (List.replicate n a) := by
  intro n
  induction n with
  | zero => simp
  | succ k ih =>
    rw [List.replicate_succ]
    refine List.Pairwise.cons ?_ ih
    intro z hz
    rw [List.eq_of_mem_replicate hz]
    exact hr

theorem pickFold_sublist (h : LayoutLineR) :
    ∀ (xs : List LayoutLineR) (b : LayoutLineR),
      scOf (xs.foldl pickStep b) ≤ scOf h → h ≠ xs.foldl pickStep b →
      ((xs.foldl pickStep b) :: List.replicate ((b :: xs).count h) h).Sublist (b :: xs) := by
  intro xs
  induction xs with
  | nil =>
    intro b hle hne
    simp only [List.foldl_nil] at *
    have hbh : (b == h) = false := by
      simp only [beq_eq_false_iff_ne, ne_eq]
      exact fun he => hne he.symm
    have hcnt : (([b] : List LayoutLineR).count h) = 0 := by
      rw [List.count_cons, List.count_nil, hbh]
      simp
    rw [hcnt]
    simp
  | cons x rest ih =>
    intro b hle hne
    simp only [List.foldl_cons] at *
    by_cases hbx : scOf b < scOf x
    · have hb' : pickStep b x = x := by simp [pickStep, hbx]
      rw [hb'] at hle hne ⊢
      have hmax := pickFold_max rest x
      have hhb : h ≠ b := by
        intro he
        rw [he] at hle
        have : scOf x ≤ scOf (rest.foldl pickStep x) := hmax.1
        have hcon : scOf b < scOf b := lt_of_lt_of_le hbx (le_trans this hle)
        exact absurd hcon (lt_irrefl _)
      have hbh : (b == h) = false := by
        simp only [beq_eq_false_iff_ne, ne_eq]
        exact fun he => hhb he.symm
      have hcnt : (b :: x :: rest).count h = (x :: rest).count h := by
        rw [List.count_cons (b := b), hbh]
        simp
      rw [hcnt]
      exact (ih x hle hne).cons b
    · have hb' : pickStep b x = b := by simp [pickStep, hbx]
      rw [hb'] at hle hne ⊢
      by_cases hhx : h = x
      · subst hhx
        have hmax := pickFold_max rest b
        have hxb : scOf h ≤ scOf b := not_lt.mp hbx
        have heq1 : scOf (rest.foldl pickStep b) = scOf b :=
          le_antisymm (le_trans hle hxb) hmax.1
        have hcb : rest.foldl pickStep b = b := by
          rcases pickFold_strict rest b with h2 | h2
          · exact h2
          · rw [heq1] at h2
            exact absurd h2 (lt_irrefl _)
        rw [hcb] at hne ⊢
        have hhb : h ≠ b := hne
        have hbh : (b == h) = false := by
          simp only [beq_eq_false_iff_ne, ne_eq]
          exact fun he => hhb he.symm
        have hcnt : (b :: h :: rest).count h = rest.count h + 1 := by
          rw [List.count_cons (b := b), hbh, List.count_cons_self]
          simp
        rw [hcnt]
        refine List.Sublist.cons₂ b ?_
        rw [List.replicate_succ]
        exact (replicate_count_sublist h rest).cons₂ h
      · have hxh : (x == h) = false := by
          simp only [beq_eq_false_iff_ne, ne_eq]
          exact fun he => hhx he.symm
        have hcnt : (b :: x :: rest).count h = (b :: rest).count h := by
          rw [List.count_cons (b := b), List.count_cons (b := x),
            List.count_cons (b := b), hxh]
          simp
        rw [hcnt]
        have hsub := ih b hle hne
        have hlift : (b :: rest).Sublist (b :: x :: rest) :=
          (List.sublist_cons_self x rest).cons₂ b
        exact hsub.trans hlift

theorem sublist_cons_of_ne {x y : LayoutLineR} {l m : List LayoutLineR}
    (hne : x ≠ y) (h : (x :: l).Sublist (y :: m)) : (x :: l).Sublist m := by
  cases h with
  | cons _ h2 => exact h2
  | cons₂ => exact absurd rfl hne

theorem head_mergeSort_eq_pickFirstMax (l : List LayoutLineR) :
    (l.mergeSort scoreGE).head? = pickFirstMax l := by
  cases l with
  | nil => simp [pickFirstMax]
  | cons x xs =>
    have hperm : ((x :: xs).mergeSort scoreGE).Perm (x :: xs) :=
      List.mergeSort_perm _ _
    have hsorted : List.Pairwise (fun a b => scoreGE a b = true)
        ((x :: xs).mergeSort scoreGE) :=
      List.sorted_mergeSort scoreGE_trans scoreGE_total _
    cases hmsl : (x :: xs).mergeSort scoreGE with
    | nil =>
      exfalso
      rw [hmsl] at hperm
      have := hperm.length_eq
      simp at this
    | cons hd t =>
      rw [hmsl] at hperm hsorted
      simp only [pickFirstMax, List.head?]
      by_cases heq : hd = xs.foldl pickStep x
      · rw [heq]
      · exfalso
        set c := xs.foldl pickStep x with hc
        have hcl : c ∈ (x :: xs) := by
          rcases pickFold_mem xs x with h2 | h2
          · rw [hc, h2]
            simp
          · simp [hc, h2]
        have hhl : hd ∈ (x :: xs) := hperm.subset (by simp)
        have hcms : c ∈ hd :: t := (hperm.mem_iff).mpr hcl
        have hch : scOf c ≤ scOf hd := by
          rcases List.mem_cons.mp hcms with h2 | h2
          · exact absurd h2.symm heq
          · have := (List.pairwise_cons.mp hsorted).1 c h2
            simpa [scoreGE, decide_eq_true_eq] using this
        have hhc : scOf hd ≤ scOf c := by
          have hmax := pickFold_max xs x
          rcases List.mem_cons.mp hhl with h2 | h2
          · rw [h2]
            exact hmax.1
          · exact hmax.2 hd h2
        have hsub := pickFold_sublist hd xs x hch heq
        have hpw : List.Pairwise (fun a b => scoreGE a b = true)
            (c :: List.replicate ((x :: xs).count hd) hd) := by
          refine List.Pairwise.cons ?_
            (pairwise_replicate_of_rel _ hd (by simp [scoreGE]) _)
          intro z hz
          rw [List.eq_of_mem_replicate hz]
          simp only [scoreGE, decide_eq_true_eq]
          exact hhc
        have hsub2 := List.sublist_mergeSort scoreGE_trans scoreGE_total hpw hsub
        rw [hmsl] at hsub2
        have hsub3 := sublist_cons_of_ne (fun he => heq he.symm) hsub2
        have h4 : (List.replicate ((x :: xs).count hd) hd).Sublist t :=
          List.sublist_of_cons_sublist hsub3
        have h5 : (x :: xs).count hd ≤ t.count hd := by
          have := h4.count_le hd
          rwa [List.count_replicate_self] at this
        have h6 : (hd :: t).count hd = (x :: xs).count hd := hperm.count_eq hd
        rw [List.count_cons_self] at h6
        omega

/-- C7: the layout name detector scores each surviving candidate as
`2.5·z(maxFont) + 1.2·centered + 0.6·bold − 1.0·verticalTopFraction +
0.4·(2 ≤ tokens ≤ 4) − 0.2·allCaps` (z against the population mean and
standard deviation over all first-page lines, 0 when the deviation is 0,
and the vertical fraction interpolated over the observed baseline range with
the 1e-6 guard), and selects the highest-scoring candidate with score ties
broken in favor of the earlier line: the sort-and-take-head implementation
equals the first-maximum selection of the spec. -/
theorem claim_C7 (lines : List LayoutLineR) (vw : ℝ) (s : LayoutLineR)
    (hs : s ∈ scoredCandidates lines) :
    chooseNameCandidate lines vw = specChooseName lines ∧
    s.score = some (2.5 * zOf lines s.maxFont +
      (if s.centered then (1.2 : ℝ) else 0) +
      (if s.bold then (0.6 : ℝ) else 0) -
      1.0 * ((topYOf lines - s.y) /
        (topYOf lines - bottomYOf lines + 1 / 1000000)) +
      (if 2 ≤ s.tokenCount ∧ s.tokenCount ≤ 4 then (0.4 : ℝ) else 0) -
      (if allCapsB s.text then (0.2 : ℝ) else 0)) := by
  constructor
  · unfold chooseNameCandidate specChooseName
    by_cases hl : lines.isEmpty
    · rw [if_pos hl, if_pos hl]
    · rw [if_neg hl, if_neg hl, head_mergeSort_eq_pickFirstMax]
  · unfold scoredCandidates at hs
    rw [List.mem_map] at hs
    obtain ⟨l, hl, he⟩ := hs
    rw [← he]
    dsimp only
    congr 1
    unfold lineScore
    by_cases h1 : 2 ≤ l.tokenCount ∧ l.tokenCount ≤ 4 <;>
      by_cases h2 : allCapsB l.text <;>
        simp [h1, h2] <;> ring

/-- Concrete first-page line for the C7 witness. -/
noncomputable def exampleLine : LayoutLineR :=
  { text := "Jane Doe".toList, y := 0, x := 0, width := 100, maxFont := 12,
    avgFont := 12, centered := true, bold := false, tokenCount := 2,
    hasDigits := false, hasEmailOrPhone := false }

/-- The scored candidate the detector builds from `exampleLine`. -/
noncomputable def exampleScored : LayoutLineR :=
  { exampleLine with score := some (lineScore [exampleLine] exampleLine) }

/-- Witness for C7 on a concrete one-line page. -/
theorem claim_C7_witness :
    chooseNameCandidate [exampleLine] 612 = specChooseName [exampleLine] ∧
    exampleScored.score = some (2.5 * zOf [exampleLine] exampleScored.maxFont +
      (if exampleScored.centered then (1.2 : ℝ) else 0) +
      (if exampleScored.bold then (0.6 : ℝ) else 0) -
      1.0 * ((topYOf [exampleLine] - exampleScored.y) /
        (topYOf [exampleLine] - bottomYOf [exampleLine] + 1 / 1000000)) +
      (if 2 ≤ exampleScored.tokenCount ∧ exampleScored.tokenCount ≤ 4
        then (0.4 : ℝ) else 0) -
      (if allCapsB exampleScored.text then (0.2 : ℝ) else 0)) :=
  claim_C7 [exampleLine] 612 exampleScored
    (by
      have h : scoredCandidates [exampleLine] = [exampleScored] := rfl
      rw [h]
      exact List.mem_singleton.mpr rfl)

end PiiSpec
